import Mathlib

/-!
Shallow embedding of the OCLA design-introspection engine from
`src/backends/json/ocla_analyze.cc` (yosys_rs).  Pure functions below are
transliterated from the C++ source; machine integers are modelled as `Nat`
with explicit `% 2 ^ w` where the C++ relies on fixed-width truncation.
Diagnostic messages are modelled by the inductive type `Msg`, one
constructor per `JSON_POST_MSG` site of the functions whose log the claims
inspect (the probe-mapping decoder and the top-level `analyze` tail);
message emission of the remaining helpers is not observed by any claim and
is omitted.
-/

namespace Ocla

/-- `MAXIMUM_SUPPORTED_PROBE_CORE` from the source. -/
def MAXIMUM_SUPPORTED_PROBE_CORE : Nat := 15

/-- `AXILite_SINGLE_BUS_SIGNALS` from the source. -/
def AXILite_SINGLE_BUS_SIGNALS : Nat := 152

/-- `AXI4_SINGLE_BUS_SIGNALS` from the source. -/
def AXI4_SINGLE_BUS_SIGNALS : Nat := 250

/-- Strip the hierarchical prefix (text up to the last dot) and a leading
backslash escape marker, as the first `OCLA_SIGNAL` constructor does. -/
def stripName (n : String) : String :=
  let n1 := (n.splitOn ".").getLastD n
  if n1.startsWith "\\" then n1.drop 1 else n1

/-- `struct OCLA_SIGNAL`: a resolved signal fragment. -/
structure OCLA_SIGNAL where
  fullname : String
  name : String
  width : Nat
  offset : Nat
  show_index : Bool
  deriving Repr, DecidableEq

/-- The first `OCLA_SIGNAL` constructor (fullname, raw name, width, offset,
show-index flag); it stores the raw name with prefix/escape stripped. -/
def mkSignal (f n : String) (w o : Nat) (s : Bool) : OCLA_SIGNAL :=
  { fullname := f, name := stripName n, width := w, offset := o, show_index := s }

/-- The second `OCLA_SIGNAL` constructor, used to synthesize AXI bus
signals: `show_index = width > 1`, the name gets a `_{i+1}` suffix unless
`no_extra_index` holds, and the offset stays `0`. -/
def mkAxiSignal (signal : String) (w i : Nat) (no_extra_index : Bool) : OCLA_SIGNAL :=
  let fn := signal ++ (if no_extra_index then "" else "_" ++ toString (i + 1))
  { fullname := fn, name := fn, width := w, offset := 0, show_index := decide (w > 1) }

/-- The fixed AXI4-Lite per-bus signal table pushed by `get_ocla_signals`
for `axi_type == "AXILite"`, in push order. -/
def axi_lite_signals : List (String × Nat) :=
  [("AWADDR", 32), ("AWPROT", 3), ("AWVALID", 1), ("AWREADY", 1),
   ("WDATA", 32), ("WSTRB", 4), ("WVALID", 1), ("WREADY", 1),
   ("BRESP", 2), ("BVALID", 1), ("BREADY", 1),
   ("ARADDR", 32), ("ARPROT", 3), ("ARVALID", 1), ("ARREADY", 1),
   ("RDATA", 32), ("RRESP", 2), ("RVALID", 1), ("RREADY", 1)]

/-- The per-bus synthesis loop of `get_ocla_signals` for the AXI bridge
core: one copy of the table per bus index `i < no_axi_bus`, each signal
built with `no_extra_index = (no_axi_bus == 1)`. -/
def axiProbes (table : List (String × Nat)) (no_axi_bus : Nat) : List OCLA_SIGNAL :=
  (List.range no_axi_bus).flatMap fun i =>
    table.map fun nw => mkAxiSignal nw.1 nw.2 i (no_axi_bus == 1)

/-- A wire of the netlist collaborator: name (with escape marker) and
declared width. -/
structure Wire where
  wname : String
  wwidth : Nat
  deriving Repr, DecidableEq

/-- `RTLIL::SigChunk`: either a constant slice or a bit range of a wire.
The text of a constant chunk is the `dump_const` rendering of its bits,
carried abstractly since no claim inspects constant text. -/
inductive SigChunk where
  | constC (text : String) (width offset : Nat)
  | wireC (w : Wire) (width offset : Nat)
  deriving Repr, DecidableEq

/-- `OCLA_Analyzer::dump_sigchunk`: converts a chunk to an `OCLA_SIGNAL`.
For a wire chunk, `show_index` is false exactly when the chunk covers the
whole wire, has width 1 and offset 0; for a constant chunk `show_index`
keeps its `false` initialisation. -/
def dump_sigchunk : SigChunk → OCLA_SIGNAL
  | .constC text width offset => mkSignal text text width offset false
  | .wireC w width offset =>
      let temp :=
        if width = w.wwidth ∧ offset = 0 then w.wname
        else if width = 1 then w.wname ++ " [" ++ toString offset ++ "]"
        else w.wname ++ " [" ++ toString (offset + width - 1) ++ ":" ++ toString offset ++ "]"
      mkSignal temp w.wname width offset
        (decide (¬ (width = w.wwidth ∧ width = 1 ∧ offset = 0)))

/-- The signal-name rendering of `json_write_signals`: `name` when the
show-index flag is false, `name[offset]` for width 1, `name[msb:lsb]`
otherwise. -/
def renderSignal (s : OCLA_SIGNAL) : String :=
  if !s.show_index then s.name
  else if s.width = 1 then s.name ++ "[" ++ toString s.offset ++ "]"
  else s.name ++ "[" ++ toString (s.offset + s.width - 1) ++ ":" ++ toString s.offset ++ "]"

/-- The show-index rule exactly as claim C8 words it: true unless the
fragment exactly covers a scalar (width 1, offset 0) wire. -/
def claimShowIndex : SigChunk → Bool
  | .constC _ _ _ => true
  | .wireC w width offset => decide (¬ (width = 1 ∧ offset = 0 ∧ w.wwidth = 1))

end Ocla

namespace Ocla

/-- Claim C5 counterexample: the per-bus AXI4-Lite table of
`get_ocla_signals` has 19 entries, not 18, so `no_axi_bus = 1` yields 19
fragments (not 18) and `no_axi_bus = 2` yields 38 (not 36): the claim's
counts are false on the code. -/
theorem c5_counterexample :
    ¬ ((axiProbes axi_lite_signals 1).length = 18 ∧
       (axiProbes axi_lite_signals 2).length = 36) := by
  decide

/-- Claim C5 (amended): the AXI-Lite bridge synthesis uses the fixed
19-name per-bus table (AWADDR..RREADY) whose widths sum to 152; with
`no_axi_bus = 2` it produces 38 entries (19 per bus), each suffixed `_1` or
`_2`, and with `no_axi_bus = 1` it produces the 19 entries with no
suffix. -/
theorem c5_axi_lite_table :
    axi_lite_signals.length = 19 ∧
    (axi_lite_signals.map Prod.snd).sum = 152 ∧
    (axiProbes axi_lite_signals 1).length = 19 ∧
    axiProbes axi_lite_signals 1 =
      axi_lite_signals.map (fun nw => mkAxiSignal nw.1 nw.2 0 true) ∧
    (∀ s ∈ axiProbes axi_lite_signals 1, ∃ nw ∈ axi_lite_signals, s.fullname = nw.1) ∧
    (axiProbes axi_lite_signals 2).length = 38 ∧
    axiProbes axi_lite_signals 2 =
      axi_lite_signals.map (fun nw => mkAxiSignal nw.1 nw.2 0 false) ++
        axi_lite_signals.map (fun nw => mkAxiSignal nw.1 nw.2 1 false) ∧
    (∀ s ∈ axiProbes axi_lite_signals 2,
      ∃ nw ∈ axi_lite_signals, s.fullname = nw.1 ++ "_1" ∨ s.fullname = nw.1 ++ "_2") := by
  decide

/-- Claim C8 counterexample: a constant fragment of width 2 gets
`show_index = false` from `dump_sigchunk` (the constant branch never sets
the flag), while the claim's rule — true unless the fragment exactly
covers a scalar wire — demands true: the claim fails on constant
fragments. -/
theorem c8_counterexample :
    (dump_sigchunk (.constC "2'10" 2 0)).show_index ≠
      claimShowIndex (.constC "2'10" 2 0) := by
  decide

/-- Claim C8 (amended): a wire fragment's show-index flag is true unless
it exactly covers a scalar (width 1, offset 0) wire; a constant fragment
always carries false; a synthesized AXI fragment carries `width > 1`; and
the flag determines rendering as claimed: `name` when false, `name[offset]`
when true with width 1, `name[msb:lsb]` when true with width greater
than 1. -/
theorem c8_show_index :
    (∀ w width offset, (dump_sigchunk (.wireC w width offset)).show_index =
        claimShowIndex (.wireC w width offset)) ∧
    (∀ text width offset, (dump_sigchunk (.constC text width offset)).show_index = false) ∧
    (∀ nm wdt i ne, (mkAxiSignal nm wdt i ne).show_index = decide (wdt > 1)) ∧
    (∀ s : OCLA_SIGNAL,
      (s.show_index = false → renderSignal s = s.name) ∧
      (s.show_index = true → s.width = 1 →
        renderSignal s = s.name ++ "[" ++ toString s.offset ++ "]") ∧
      (s.show_index = true → 1 < s.width →
        renderSignal s =
          s.name ++ "[" ++ toString (s.offset + s.width - 1) ++ ":" ++ toString s.offset ++ "]")) := by
  refine ⟨?_, ?_, ?_, ?_⟩
  · intro w width offset
    simp only [dump_sigchunk, claimShowIndex, mkSignal, decide_eq_decide]
    omega
  · intro text width offset
    rfl
  · intro nm wdt i ne
    rfl
  · intro s
    refine ⟨?_, ?_, ?_⟩
    · intro h
      simp [renderSignal, h]
    · intro h hw
      simp [renderSignal, h, hw]
    · intro h hw
      have : s.width ≠ 1 := by omega
      simp [renderSignal, h, this]

/-- Claim C8 witness: the amended rendering rule applied to a concrete
indexed signal of width 3 at offset 2. -/
theorem c8_witness :
    renderSignal ⟨"w", "w", 3, 2, true⟩ =
      "w" ++ "[" ++ toString (2 + 3 - 1) ++ ":" ++ toString 2 ++ "]" :=
  (c8_show_index.2.2.2 ⟨"w", "w", 3, 2, true⟩).2.2 rfl (by norm_num)

/-- The apostrophe that separates the bit-size prefix from the binary
digits in a sized literal. -/
def quoteChar : Char := Char.ofNat 39

/-- The character set `"10"` of the binary-digit check in `set_param`. -/
def isBinChar (c : Char) : Bool := c == Char.ofNat 48 || c == Char.ofNat 49

/-- `stol` on a string already checked to hold only decimal digits. -/
def stolDigits (l : List Char) : Nat :=
  l.foldl (fun a c => a * 10 + (c.toNat - 48)) 0

/-- `stoll(bin, nullptr, 2)` on a string already checked to hold only
binary digits. -/
def stolBin (l : List Char) : Nat :=
  l.foldl (fun a c => a * 2 + (c.toNat - 48)) 0

/-- The integer branch of `MODULE_IP::set_param` (literal decoding only):
the text before the first apostrophe is the bit size, the text after it
the binary digits; a plain literal must be all decimal digits.  `is64`
selects the uint64 slot limit of 64 bits over the uint32 limit of 32.
Returns the stored value (truncated to the slot width) or `none` for a
format error.  Out-of-range `stoll` exceptions on plain literals at or
above 2^63 are outside every claim and not modelled. -/
def set_param_int (is64 : Bool) (value : List Char) : Option Nat :=
  match value.dropWhile (fun c => c != quoteChar) with
  | [] =>
      if value.any (fun c => !c.isDigit) then none
      else some (stolDigits value % (if is64 then 2 ^ 64 else 2 ^ 32))
  | _ :: bin_value =>
      let bit_size_str := value.takeWhile (fun c => c != quoteChar)
      if bit_size_str.any (fun c => !c.isDigit) || bin_value.any (fun c => !isBinChar c) then
        none
      else
        let bit_size := stolDigits bit_size_str
        if bit_size = 0 || bit_size != bin_value.length then none
        else if !is64 && decide (bit_size > 32) then none
        else if is64 && decide (bit_size > 64) then none
        else some (stolBin bin_value % (if is64 then 2 ^ 64 else 2 ^ 32))

/-- The acceptance condition exactly as claim C7 words it: a sized literal
`{bits}'{binary-digits}` needs `bits` to be a nonzero decimal number equal
to the count of binary digits and at most 32 (uint32 slot) or 64 (uint64
slot); a plain literal must consist solely of decimal digits. -/
def claimIntFormat (is64 : Bool) (value : List Char) : Prop :=
  (quoteChar ∉ value ∧ ∀ c ∈ value, c.isDigit) ∨
  (∃ bits bin, value = bits ++ quoteChar :: bin ∧ quoteChar ∉ bits ∧
    (∀ c ∈ bits, c.isDigit) ∧ stolDigits bits ≠ 0 ∧ stolDigits bits = bin.length ∧
    stolDigits bits ≤ (if is64 then 64 else 32) ∧ ∀ c ∈ bin, isBinChar c)

/-- The integer-slot part of `get_module_params`: literals are decoded one
after the other and the first format error discards the whole candidate
(`delete ip`), modelled as `none`; the surrounding module scan goes on. -/
def decode_uint_params : List (Bool × List Char) → Option (List Nat)
  | [] => some []
  | (b, v) :: rest =>
      match set_param_int b v with
      | none => none
      | some x =>
          match decode_uint_params rest with
          | none => none
          | some xs => some (x :: xs)

theorem takeWhile_append_eq {p : Char → Bool} (a : Char) (l2 : List Char) :
    ∀ l1 : List Char, (∀ c ∈ l1, p c = true) → p a = false →
      (l1 ++ a :: l2).takeWhile p = l1 := by
  intro l1
  induction l1 with
  | nil => intro _ ha; simp [List.takeWhile_cons, ha]
  | cons c l ih =>
      intro h ha
      have hc : p c = true := h c (by simp)
      simp only [List.cons_append, List.takeWhile_cons, hc, if_true]
      rw [ih (fun x hx => h x (by simp [hx])) ha]

theorem dropWhile_append_eq {p : Char → Bool} (a : Char) (l2 : List Char) :
    ∀ l1 : List Char, (∀ c ∈ l1, p c = true) → p a = false →
      (l1 ++ a :: l2).dropWhile p = a :: l2 := by
  intro l1
  induction l1 with
  | nil => intro _ ha; simp [List.dropWhile_cons, ha]
  | cons c l ih =>
      intro h ha
      have hc : p c = true := h c (by simp)
      simp only [List.cons_append, List.dropWhile_cons, hc, if_true]
      exact ih (fun x hx => h x (by simp [hx])) ha

theorem dropWhile_head_false {p : Char → Bool} :
    ∀ (l : List Char) (a : Char) (l' : List Char), l.dropWhile p = a :: l' → p a = false := by
  intro l
  induction l with
  | nil => intro a l' h; simp at h
  | cons c l ih =>
      intro a l' h
      rw [List.dropWhile_cons] at h
      split at h
      · exact ih a l' h
      · cases h
        next hc => simpa using hc

/-- Claim C7: an integer parameter slot accepts a sized literal
`{bits}'{binary-digits}` exactly when `bits` is a nonzero decimal number
equal to the count of binary digits and at most 32 for a uint32 slot or 64
for a uint64 slot, and a plain literal exactly when it is all decimal
digits; any other content is a format error, and one such error discards
the whole owning candidate. -/
theorem c7_int_literal :
    (∀ is64 value, (set_param_int is64 value).isSome ↔ claimIntFormat is64 value) ∧
    (∀ ps : List (Bool × List Char), (∃ bv ∈ ps, ¬ claimIntFormat bv.1 bv.2) →
      decode_uint_params ps = none) := by
  have main : ∀ is64 value, (set_param_int is64 value).isSome ↔ claimIntFormat is64 value := by
    intro is64 value
    unfold set_param_int
    cases hdw : value.dropWhile (fun c => c != quoteChar) with
    | nil =>
        have hall : ∀ c ∈ value, c ≠ quoteChar := by
          intro c hc
          have := List.dropWhile_eq_nil_iff.mp hdw c hc
          simpa using this
        constructor
        · intro h
          left
          refine ⟨fun hq => (hall _ hq) rfl, ?_⟩
          intro c hc
          by_contra hd
          have : value.any (fun c => !c.isDigit) = true :=
            List.any_eq_true.mpr ⟨c, hc, by simp [hd]⟩
          simp [this] at h
        · intro h
          rcases h with ⟨_, hdig⟩ | ⟨bits, bin, heq, _, _, _, _, _, _⟩
          · have : value.any (fun c => !c.isDigit) = false := by
              simp only [List.any_eq_false]
              intro c hc
              simp [hdig c hc]
            simp [this]
          · exfalso
            have : quoteChar ∈ value := by simp [heq]
            exact hall _ this rfl
    | cons q bin =>
        have hq : q = quoteChar := by
          have := dropWhile_head_false (p := fun c => c != quoteChar) value q bin hdw
          simpa using this
        subst hq
        have hval : value.takeWhile (fun c => c != quoteChar) ++ quoteChar :: bin = value := by
          conv_rhs => rw [← List.takeWhile_append_dropWhile
            (p := fun c => c != quoteChar) (l := value)]
          rw [hdw]
        have hnbits : quoteChar ∉ value.takeWhile (fun c => c != quoteChar) := by
          intro hmem
          have := List.mem_takeWhile_imp hmem
          simp at this
        constructor
        · intro h
          right
          refine ⟨value.takeWhile (fun c => c != quoteChar), bin, hval.symm, hnbits, ?_⟩
          have hd : ((value.takeWhile (fun c => c != quoteChar)).any (fun c => !c.isDigit) ||
              bin.any (fun c => !isBinChar c)) = false := by
            cases hB : ((value.takeWhile (fun c => c != quoteChar)).any (fun c => !c.isDigit) ||
                bin.any (fun c => !isBinChar c)) with
            | false => rfl
            | true => simp [hB] at h
          have hz : (stolDigits (value.takeWhile (fun c => c != quoteChar)) = 0 ||
              stolDigits (value.takeWhile (fun c => c != quoteChar)) != bin.length) = false := by
            cases hB : (stolDigits (value.takeWhile (fun c => c != quoteChar)) = 0 ||
                stolDigits (value.takeWhile (fun c => c != quoteChar)) != bin.length) with
            | false => rfl
            | true => simp only [hd, Bool.false_eq_true, if_false, hB, if_true] at h; simp at h
          have hlim : stolDigits (value.takeWhile (fun c => c != quoteChar)) ≤
              (if is64 then 64 else 32) := by
            cases is64 with
            | false =>
                by_contra hgt
                push_neg at hgt
                simp at hgt
                have hB : (!false && decide
                    (stolDigits (value.takeWhile (fun c => c != quoteChar)) > 32)) = true := by
                  simp; omega
                simp only [hd, Bool.false_eq_true, if_false, hz, hB, if_true] at h
                simp at h
            | true =>
                by_contra hgt
                push_neg at hgt
                simp at hgt
                have hB : (true && decide
                    (stolDigits (value.takeWhile (fun c => c != quoteChar)) > 64)) = true := by
                  simp; omega
                simp only [hd, Bool.false_eq_true, if_false, hz, hB, if_true] at h
                simp at h
          simp only [Bool.or_eq_false_iff, List.any_eq_false] at hd
          simp only [Bool.or_eq_false_iff] at hz
          refine ⟨fun c hc => by simpa using hd.1 c hc, by simpa using hz.1, ?_, hlim,
            fun c hc => by simpa using hd.2 c hc⟩
          have := hz.2
          simpa using this
        · intro h
          rcases h with ⟨hnq, _⟩ | ⟨bits, bin', heq, hnb, hdig, h0, hlen, hle, hbin⟩
          · exfalso
            refine hnq ?_
            rw [← hval]
            simp
          · have hbits : value.takeWhile (fun c => c != quoteChar) = bits := by
              rw [heq]
              exact takeWhile_append_eq _ _ _ (fun c hc => by
                simp only [bne_iff_ne, ne_eq, decide_eq_true_eq]
                intro hce; exact hnb (hce ▸ hc)) (by simp)
            have hbin2 : quoteChar :: bin = quoteChar :: bin' := by
              rw [← hdw, heq]
              exact dropWhile_append_eq _ _ _ (fun c hc => by
                simp only [bne_iff_ne, ne_eq, decide_eq_true_eq]
                intro hce; exact hnb (hce ▸ hc)) (by simp)
            have hbin' : bin = bin' := by
              injection hbin2
            subst hbin'
            have hd1 : bits.any (fun c => !c.isDigit) = false := by
              simp only [List.any_eq_false]
              intro c hc; simp [hdig c hc]
            have hd2 : bin.any (fun c => !isBinChar c) = false := by
              simp only [List.any_eq_false]
              intro c hc; simp [hbin c hc]
            have hz : (stolDigits bits = 0 || stolDigits bits != bin.length) = false := by
              rw [Bool.or_eq_false_iff]
              constructor
              · simpa using h0
              · simpa using hlen
            rw [hbits]
            cases is64 with
            | false =>
                have hlim : (!false && decide (stolDigits bits > 32)) = false := by
                  simp at hle ⊢
                  omega
                simp [hd1, hd2, hz, hlim]
                simpa using hle
            | true =>
                have hlim : (true && decide (stolDigits bits > 64)) = false := by
                  simp at hle ⊢
                  omega
                simp [hd1, hd2, hz, hlim]
  refine ⟨main, ?_⟩
  intro ps
  induction ps with
  | nil => intro h; simp at h
  | cons bv rest ih =>
      intro h
      rcases h with ⟨x, hx, hbad⟩
      unfold decode_uint_params
      rcases List.mem_cons.mp hx with heq | hmem
      · subst heq
        have : (set_param_int x.1 x.2).isSome = false := by
          by_contra hc
          exact hbad ((main x.1 x.2).mp (by revert hc; cases set_param_int x.1 x.2 <;> simp))
        cases hs : set_param_int x.1 x.2 with
        | none => rfl
        | some v => rw [hs] at this; simp at this
      · have := ih ⟨x, hmem, hbad⟩
        rw [this]
        cases set_param_int bv.1 bv.2 <;> rfl

/-- Claim C7 witness: the sized literal `3'101` is accepted for a uint32
slot and therefore matches the claim's format condition. -/
theorem c7_witness :
    claimIntFormat false
      [Char.ofNat 51, Char.ofNat 39, Char.ofNat 49, Char.ofNat 48, Char.ofNat 49] :=
  (c7_int_literal.1 false _).mp (by decide)

/-- `struct OCLA_MODULE` (with the `MODULE_IP` base fields): one OCLA core
candidate.  All fields the claims read are carried. -/
structure OCLA_MODULE where
  name : String := ""
  is_axi : Bool := false
  axi_addr_width : Nat := 0
  axi_data_width : Nat := 0
  mem_depth : Nat := 0
  probes_count : Nat := 0
  index : Nat := 0
  base_address : Nat := 0
  probes : List OCLA_SIGNAL := []
  probe_order : List Nat := []
  ip_type : String := ""
  version : Nat := 0
  id : Nat := 0
  deriving Repr, DecidableEq

/-- The inner while loop of `OCLA_MODULE::finalize`: consume exactly `w`
bits of the fragment stream, failing when a fragment is wider than the
bits remaining for the current probe or when the stream runs out. -/
def consumeProbe : Nat → List OCLA_SIGNAL → Option (List OCLA_SIGNAL)
  | w, [] => if w = 0 then some [] else none
  | w, p :: rest =>
      if w = 0 then some (p :: rest)
      else if p.width > w then none
      else consumeProbe (w - p.width) rest

/-- The `probe_order` walk of `finalize` including the trailing
`probe_index != probes.size()` check: every probe consumes exactly its
declared width and the stream must end exactly at the last probe. -/
def alignWalk (probe_widths : List Nat) : List Nat → List OCLA_SIGNAL → Bool
  | [], ps => decide (ps = [])
  | p :: order, ps =>
      match consumeProbe (probe_widths.getD p 0) ps with
      | none => false
      | some rest => alignWalk probe_widths order rest

/-- `OCLA_MODULE::finalize`: the summed fragment widths must equal the
declared `probes_count`; an AXI core stops there; a native core
additionally runs the alignment walk. -/
def finalize (m : OCLA_MODULE) (probe_widths : List Nat) : Bool :=
  if (m.probes.map OCLA_SIGNAL.width).sum ≠ m.probes_count then false
  else if m.is_axi then true
  else alignWalk probe_widths m.probe_order m.probes

/-- The alignment property as claim C4 words it: the fragment stream
splits into consecutive groups, one per probe of `probe_order` in order,
the group of probe `p` holding exactly `probeWidth[p]` bits — no
straddling fragment, no shortfall, no leftover. -/
def ProbePartition (pw : List Nat) (order : List Nat) (ps : List OCLA_SIGNAL) : Prop :=
  ∃ parts : List (List OCLA_SIGNAL), parts.flatten = ps ∧
    List.Forall₂ (fun part p => ((part.map OCLA_SIGNAL.width).sum = pw.getD p 0)) parts order

theorem consumeProbe_sound :
    ∀ (ps : List OCLA_SIGNAL) (w : Nat) (rest : List OCLA_SIGNAL),
      consumeProbe w ps = some rest →
      ∃ pre, ps = pre ++ rest ∧ (pre.map OCLA_SIGNAL.width).sum = w := by
  intro ps
  induction ps with
  | nil =>
      intro w rest h
      unfold consumeProbe at h
      by_cases hw : w = 0
      · subst hw
        simp at h
        exact ⟨[], by simp [h], rfl⟩
      · simp [hw] at h
  | cons p ps ih =>
      intro w rest h
      unfold consumeProbe at h
      by_cases hw : w = 0
      · subst hw
        simp at h
        exact ⟨[], by simp [h], rfl⟩
      · simp only [hw, if_false] at h
        by_cases hpw : p.width > w
        · simp [hpw] at h
        · simp only [hpw, if_false] at h
          obtain ⟨pre, hpre, hsum⟩ := ih _ _ h
          refine ⟨p :: pre, by simp [hpre], ?_⟩
          simp only [List.map_cons, List.sum_cons, hsum]
          omega

theorem consumeProbe_complete :
    ∀ (pre : List OCLA_SIGNAL), (∀ s ∈ pre, 0 < s.width) →
      ∀ rest : List OCLA_SIGNAL,
        consumeProbe ((pre.map OCLA_SIGNAL.width).sum) (pre ++ rest) = some rest := by
  intro pre
  induction pre with
  | nil =>
      intro _ rest
      cases rest <;> simp [consumeProbe]
  | cons p pre ih =>
      intro hpos rest
      have hp : 0 < p.width := hpos p (by simp)
      have hw : p.width + (pre.map OCLA_SIGNAL.width).sum ≠ 0 := by omega
      simp only [List.map_cons, List.sum_cons, List.cons_append]
      unfold consumeProbe
      simp only [hw, if_false]
      have hgt : ¬ (p.width > p.width + (pre.map OCLA_SIGNAL.width).sum) := by omega
      simp only [hgt, if_false]
      have : p.width + (pre.map OCLA_SIGNAL.width).sum - p.width =
          (pre.map OCLA_SIGNAL.width).sum := by omega
      rw [this]
      exact ih (fun s hs => hpos s (by simp [hs])) rest

theorem alignWalk_iff (pw : List Nat) :
    ∀ (order : List Nat) (ps : List OCLA_SIGNAL), (∀ s ∈ ps, 0 < s.width) →
      (alignWalk pw order ps = true ↔ ProbePartition pw order ps) := by
  intro order
  induction order with
  | nil =>
      intro ps _
      unfold alignWalk ProbePartition
      constructor
      · intro h
        have : ps = [] := of_decide_eq_true h
        exact ⟨[], by simp [this], by constructor⟩
      · intro ⟨parts, hflat, hf⟩
        cases hf
        simpa using hflat.symm
  | cons p order ih =>
      intro ps hpos
      unfold alignWalk
      constructor
      · intro h
        cases hc : consumeProbe (pw.getD p 0) ps with
        | none => rw [hc] at h; simp at h
        | some rest =>
            rw [hc] at h
            obtain ⟨pre, hpre, hsum⟩ := consumeProbe_sound ps _ rest hc
            have hrest : ∀ s ∈ rest, 0 < s.width := by
              intro s hs; exact hpos s (by simp [hpre, hs])
            obtain ⟨parts, hflat, hf⟩ := (ih rest hrest).mp h
            exact ⟨pre :: parts, by simp [hpre, hflat], List.Forall₂.cons hsum hf⟩
      · intro ⟨parts, hflat, hf⟩
        cases hf with
        | cons hsum hf' =>
            next part parts' =>
              have hpre : ps = part ++ parts'.flatten := by simp [← hflat]
              have hpos1 : ∀ s ∈ part, 0 < s.width := by
                intro s hs; exact hpos s (by simp [hpre, hs])
              have hc : consumeProbe (pw.getD p 0) ps = some parts'.flatten := by
                rw [hpre, ← hsum]
                exact consumeProbe_complete part hpos1 _
              rw [hc]
              have hrest : ∀ s ∈ parts'.flatten, 0 < s.width := by
                intro s hs; exact hpos s (by simp [hpre, hs])
              exact (ih parts'.flatten hrest).mpr ⟨parts', rfl, hf'⟩

/-- Claim C4: per-core finalization succeeds exactly when the summed
fragment widths equal the declared `probes_count` and, for a non-AXI core,
the fragment stream partitions along `probe_order` into groups of exactly
`probeWidth[p]` bits each — no straddling fragment, no shortfall, no
leftover.  The positivity hypothesis is the `log_assert(width)` invariant
of every `OCLA_SIGNAL`. -/
theorem c4_finalize (m : OCLA_MODULE) (pw : List Nat)
    (hpos : ∀ s ∈ m.probes, 0 < s.width) :
    finalize m pw = true ↔
      ((m.probes.map OCLA_SIGNAL.width).sum = m.probes_count ∧
        (m.is_axi = true ∨ ProbePartition pw m.probe_order m.probes)) := by
  unfold finalize
  by_cases hsum : (m.probes.map OCLA_SIGNAL.width).sum ≠ m.probes_count
  · rw [if_pos hsum]
    constructor
    · intro h; simp at h
    · intro h; exact absurd h.1 hsum
  · push_neg at hsum
    rw [if_neg (not_not_intro hsum)]
    cases hax : m.is_axi with
    | true => simp [hsum]
    | false =>
        simp only [Bool.false_eq_true, if_false, false_or]
        exact ⟨fun h => ⟨hsum, (alignWalk_iff pw m.probe_order m.probes hpos).mp h⟩,
          fun h => (alignWalk_iff pw m.probe_order m.probes hpos).mpr h.2⟩

/-- Claim C4 witness: a concrete native core with two probes of widths 4
and 3 whose fragments align exactly. -/
theorem c4_witness :
    finalize
      { probes_count := 7,
        probes := [⟨"a", "a", 4, 0, false⟩, ⟨"b", "b", 2, 0, false⟩, ⟨"c", "c", 1, 0, false⟩],
        probe_order := [0, 1] }
      [4, 3] = true :=
  (c4_finalize _ [4, 3] (by decide)).mpr
    ⟨by decide,
     Or.inr ⟨[[⟨"a", "a", 4, 0, false⟩], [⟨"b", "b", 2, 0, false⟩, ⟨"c", "c", 1, 0, false⟩]],
       by decide,
       List.Forall₂.cons (by decide) (List.Forall₂.cons (by decide) List.Forall₂.nil)⟩⟩

/-- The ordered insertion of `get_modules`: a qualified OCLA candidate is
inserted before the first existing entry whose declared index is strictly
greater, so the list stays ascending by index and equal indices keep scan
order. -/
def insertOcla (m : OCLA_MODULE) : List OCLA_MODULE → List OCLA_MODULE
  | [] => [m]
  | x :: xs => if m.index < x.index then m :: x :: xs else x :: insertOcla m xs

/-- The classification fold of `get_modules` over the qualified OCLA
candidates in design scan order; every candidate enters with the
constructor default `is_axi = false`. -/
def buildOclaList (cands : List OCLA_MODULE) : List OCLA_MODULE :=
  cands.foldl (fun l m => insertOcla m l) []

/-- `ocla_modules.back()->is_axi = true`: mark the last list entry. -/
def markAxiLast : List OCLA_MODULE → List OCLA_MODULE
  | [] => []
  | [x] => [{x with is_axi := true}]
  | x :: y :: xs => x :: markAxiLast (y :: xs)

/-- Step 6 of `OCLA_Analyzer::analyze`: the last OCLA module is marked as
the AXI bridge exactly in AXI and NATIVE_AXI mode. -/
def analyzeMarkAxi (mode : String) (mods : List OCLA_MODULE) : List OCLA_MODULE :=
  if mode = "AXI" ∨ mode = "NATIVE_AXI" then markAxiLast mods else mods

/-- The ascending-index order maintained by the classification insert. -/
def IdxLe (a b : OCLA_MODULE) : Prop := a.index ≤ b.index

theorem mem_insertOcla {a m : OCLA_MODULE} :
    ∀ l, a ∈ insertOcla m l → a = m ∨ a ∈ l := by
  intro l
  induction l with
  | nil =>
      intro h
      unfold insertOcla at h
      exact Or.inl (by simpa using h)
  | cons x xs ih =>
      intro h
      unfold insertOcla at h
      by_cases hc : m.index < x.index
      · rw [if_pos hc] at h
        rcases List.mem_cons.mp h with h1 | h2
        · exact Or.inl h1
        · exact Or.inr h2
      · rw [if_neg hc] at h
        rcases List.mem_cons.mp h with h1 | h2
        · exact Or.inr (by simp [h1])
        · rcases ih h2 with h3 | h4
          · exact Or.inl h3
          · exact Or.inr (by simp [h4])

theorem sorted_insertOcla {m : OCLA_MODULE} :
    ∀ l, l.Sorted IdxLe → (insertOcla m l).Sorted IdxLe := by
  intro l
  induction l with
  | nil => intro _; simp [insertOcla]
  | cons x xs ih =>
      intro hs
      rw [List.sorted_cons] at hs
      obtain ⟨hx, hxs⟩ := hs
      unfold insertOcla
      by_cases hc : m.index < x.index
      · rw [if_pos hc, List.sorted_cons]
        refine ⟨?_, List.sorted_cons.mpr ⟨hx, hxs⟩⟩
        intro b hb
        rcases List.mem_cons.mp hb with h1 | h2
        · subst h1; exact Nat.le_of_lt hc
        · exact Nat.le_trans (Nat.le_of_lt hc) (hx b h2)
      · rw [if_neg hc, List.sorted_cons]
        refine ⟨?_, ih hxs⟩
        intro b hb
        rcases mem_insertOcla _ hb with h1 | h2
        · subst h1; exact Nat.le_of_not_lt hc
        · exact hx b h2

theorem length_insertOcla (m : OCLA_MODULE) :
    ∀ l, (insertOcla m l).length = l.length + 1 := by
  intro l
  induction l with
  | nil => rfl
  | cons x xs ih =>
      unfold insertOcla
      by_cases hc : m.index < x.index
      · rw [if_pos hc]; simp
      · rw [if_neg hc]; simp [ih]

theorem build_aux_sorted (cands : List OCLA_MODULE) :
    ∀ acc, acc.Sorted IdxLe →
      (cands.foldl (fun l m => insertOcla m l) acc).Sorted IdxLe := by
  induction cands with
  | nil => intro acc h; exact h
  | cons c cs ih =>
      intro acc h
      exact ih _ (sorted_insertOcla _ h)

theorem build_aux_mem (cands : List OCLA_MODULE) :
    ∀ acc a, a ∈ cands.foldl (fun l m => insertOcla m l) acc → a ∈ acc ∨ a ∈ cands := by
  induction cands with
  | nil => intro acc a h; exact Or.inl h
  | cons c cs ih =>
      intro acc a h
      rcases ih _ a h with h1 | h2
      · rcases mem_insertOcla _ h1 with h3 | h4
        · exact Or.inr (by simp [h3])
        · exact Or.inl h4
      · exact Or.inr (by simp [h2])

theorem build_aux_length (cands : List OCLA_MODULE) :
    ∀ acc, (cands.foldl (fun l m => insertOcla m l) acc).length =
      acc.length + cands.length := by
  induction cands with
  | nil => intro acc; simp
  | cons c cs ih =>
      intro acc
      rw [List.foldl_cons, ih, length_insertOcla]
      simp
      omega

theorem markAxiLast_eq :
    ∀ (l : List OCLA_MODULE), l ≠ [] →
      ∃ x, l.getLast? = some x ∧
        markAxiLast l = l.dropLast ++ [{x with is_axi := true}] := by
  intro l
  induction l with
  | nil => intro h; exact absurd rfl h
  | cons a l ih =>
      intro _
      cases l with
      | nil => exact ⟨a, rfl, rfl⟩
      | cons b l' =>
          obtain ⟨x, hx1, hx2⟩ := ih (by simp)
          refine ⟨x, ?_, ?_⟩
          · rw [List.getLast?_cons_cons]
            exact hx1
          · show a :: markAxiLast (b :: l') = (a :: b :: l').dropLast ++ _
            rw [hx2]
            simp

theorem sorted_le_getLast :
    ∀ (l : List OCLA_MODULE), l.Sorted IdxLe → ∀ x, l.getLast? = some x →
      ∀ a ∈ l, a.index ≤ x.index := by
  intro l
  induction l with
  | nil => intro _ x hx; simp at hx
  | cons c cs ih =>
      intro hs x hx a ha
      rw [List.sorted_cons] at hs
      cases cs with
      | nil =>
          simp at hx
          subst hx
          simp at ha
          subst ha
          exact Nat.le_refl _
      | cons d ds =>
          rw [List.getLast?_cons_cons] at hx
          rcases List.mem_cons.mp ha with h1 | h2
          · subst h1
            have hd : x ∈ d :: ds := by
              obtain ⟨hne, hxe⟩ := List.mem_getLast?_eq_getLast (l := d :: ds) (x := x) hx
              rw [hxe]
              exact List.getLast_mem hne
            exact Nat.le_trans (hs.1 x hd) (Nat.le_refl _)
          · exact ih hs.2 x hx a h2

/-- Claim C9: after the classifier's ascending-index insertion, when the
subsystem mode is AXI or NATIVE_AXI step 6 of `analyze` marks exactly one
core as the AXI bridge, namely the last list entry, whose declared index is
maximal over the list; in NATIVE mode no core is ever marked. -/
theorem c9_axi_bridge (mode : String) (cands : List OCLA_MODULE)
    (hne : cands ≠ []) (hax : ∀ m ∈ cands, m.is_axi = false) :
    ((mode = "AXI" ∨ mode = "NATIVE_AXI") →
      ((analyzeMarkAxi mode (buildOclaList cands)).countP (fun m => m.is_axi) = 1 ∧
       (∀ a ∈ (analyzeMarkAxi mode (buildOclaList cands)).dropLast, a.is_axi = false) ∧
       ∃ last, (analyzeMarkAxi mode (buildOclaList cands)).getLast? = some last ∧
         last.is_axi = true ∧
         ∀ a ∈ analyzeMarkAxi mode (buildOclaList cands), a.index ≤ last.index)) ∧
    (mode = "NATIVE" →
      ∀ a ∈ analyzeMarkAxi mode (buildOclaList cands), a.is_axi = false) := by
  have hsorted : (buildOclaList cands).Sorted IdxLe :=
    build_aux_sorted cands [] (by simp)
  have hmem : ∀ a ∈ buildOclaList cands, a ∈ cands := by
    intro a ha
    rcases build_aux_mem cands [] a ha with h1 | h2
    · simp at h1
    · exact h2
  have hall : ∀ a ∈ buildOclaList cands, a.is_axi = false := fun a ha => hax a (hmem a ha)
  have hlne : buildOclaList cands ≠ [] := by
    have hlen : (buildOclaList cands).length = cands.length := by
      have := build_aux_length cands []
      simpa [buildOclaList] using this
    intro h
    rw [h] at hlen
    exact hne (List.eq_nil_of_length_eq_zero hlen.symm)
  constructor
  · intro hmode
    have hif : analyzeMarkAxi mode (buildOclaList cands) = markAxiLast (buildOclaList cands) := by
      unfold analyzeMarkAxi
      rw [if_pos hmode]
    obtain ⟨x, hx1, hx2⟩ := markAxiLast_eq (buildOclaList cands) hlne
    have hdl : ∀ a ∈ (buildOclaList cands).dropLast, a.is_axi = false := by
      intro a ha
      exact hall a (List.dropLast_subset _ ha)
    refine ⟨?_, ?_, ⟨{x with is_axi := true}, ?_, rfl, ?_⟩⟩
    · rw [hif, hx2, List.countP_append]
      have h0 : (buildOclaList cands).dropLast.countP (fun m => m.is_axi) = 0 := by
        rw [List.countP_eq_zero]
        intro a ha
        simp [hdl a ha]
      rw [h0]
      rfl
    · intro a ha
      rw [hif, hx2, List.dropLast_concat] at ha
      exact hdl a ha
    · rw [hif, hx2]
      exact List.getLast?_concat _
    · intro a ha
      rw [hif, hx2] at ha
      rcases List.mem_append.mp ha with h1 | h2
      · exact sorted_le_getLast _ hsorted x hx1 a (List.dropLast_subset _ h1)
      · simp at h2
        rw [h2]
  · intro hmode
    have hif : analyzeMarkAxi mode (buildOclaList cands) = buildOclaList cands := by
      unfold analyzeMarkAxi
      rw [if_neg]
      rw [hmode]
      intro hc
      rcases hc with h | h <;> simp at h
    rw [hif]
    exact hall

/-- Claim C9 witness: two concrete cores with indices 1 and 0 classified in
scan order, subsystem mode AXI: exactly one core is marked as the bridge. -/
theorem c9_witness :
    (analyzeMarkAxi "AXI" (buildOclaList
      [{ name := "a", index := 1 }, { name := "b", index := 0 }])).countP
        (fun m => m.is_axi) = 1 :=
  ((c9_axi_bridge "AXI"
      [{ name := "a", index := 1 }, { name := "b", index := 0 }]
      (by decide) (by decide)).1 (Or.inl rfl)).1

/-- One constructor per `JSON_POST_MSG` site of `map_probe_core` plus the
always-written closing marker of `analyze`; these are the only log entries
a claim inspects.  Arguments mirror the C++ format-string arguments. -/
inductive Msg where
  | zeroKnowledge
  | startWithMapping (idx : Nat)
  | ifProbesMustBeValid
  | ifProbesShouldNotBeNull (ifn : Nat)
  | duplicatedProbe (nibbleIdx ifn : Nat) (field : Nat) (probe : Nat)
  | probeWidthZero (probe nibbleIdx ifn : Nat) (field : Nat)
  | invalidProbe (nibbleIdx ifn : Nat) (field probe : Nat)
  | ifProbesShouldBeNull (ifn : Nat) (field : Nat)
  | calcProbeMustMatch (nativeProbe noProbes : Nat)
  | comparisonFailed
  | coreMustHaveProbe
  | nativeCoreNoProbe (idx : Nat)
  | axiCoreHasProbe (idx : Nat)
  | invalidNativeCores (n : Nat)
  | coreWidthHeader
  | coreWidthInfo (core w : Nat)
  | endOfAnalysis
  deriving Repr, DecidableEq

/-- `struct PROBE2CORE_PARAM_INFO`. -/
structure PROBE2CORE_PARAM_INFO where
  core : Nat := 0
  offset : Nat := 0
  deriving Repr, DecidableEq

/-- `struct OCLA_DEBUG_SUBSYSTEM_MODULE` (with the `MODULE_IP` base
fields).  The three 15-slot parameter arrays and the two derived 15-slot
arrays are lists of length 15; `uint64` packed fields are read modulo
`2 ^ 64` where consumed. -/
structure OCLA_DEBUG_SUBSYSTEM_MODULE where
  name : String := ""
  ip_type : String := ""
  version : Nat := 0
  id : Nat := 0
  mode : String := ""
  axi_type : String := ""
  sampling_clk : String := ""
  cores : Nat := 0
  no_probes : Nat := 0
  no_axi_bus : Nat := 0
  probes_sum : Nat := 0
  ip_probe_width : List Nat := List.replicate 15 0
  ip_address : List Nat := List.replicate 15 0
  ip_probe_info : List Nat := List.replicate 15 0
  axi_core_address : Nat := 0
  probe_to_core_map : List PROBE2CORE_PARAM_INFO := List.replicate 15 {}
  calculated_ip_core_width : List Nat := List.replicate 15 0
  deriving Repr, DecidableEq

/-- The mutable state threaded through `map_probe_core`: the module list
(whose `probe_order` fields the decoder fills), the two derived subsystem
arrays, the local duplicate bitmask and probe counter, and the log. -/
structure MapSt where
  mods : List OCLA_MODULE := []
  p2c : List PROBE2CORE_PARAM_INFO := List.replicate 15 {}
  calcW : List Nat := List.replicate 15 0
  mapping : Nat := 0
  native_probe : Nat := 0
  msgs : List Msg := []
  deriving Repr, DecidableEq

/-- The nibble list of a packed field, least-significant nibble first,
exactly as the `while (info) { info & 0xF; info >>= 4 }` loop consumes it.
Fuel 16 is exact for any `uint64` value. -/
def nibblesF : Nat → Nat → List Nat
  | 0, _ => []
  | fuel + 1, info =>
      if info = 0 then [] else info % 16 :: nibblesF fuel (info / 16)

/-- The bit set `mapping` accumulates over a nibble list. -/
def orBits : List Nat → Nat
  | [] => 0
  | p :: rest => 2 ^ (p - 1) ||| orBits rest

/-- Validity of a nibble sequence against the running duplicate mask: each
1-based nibble is in `1 ..= min(15, no_probes)`, its probe width is
nonzero, and its bit is fresh. -/
def validNibbleSeq (no_probes : Nat) (ipw : List Nat) : Nat → List Nat → Bool
  | _, [] => true
  | mapping, p :: rest =>
      decide (1 ≤ p) && decide (p ≤ MAXIMUM_SUPPORTED_PROBE_CORE) &&
      decide (p ≤ no_probes) && !(mapping.testBit (p - 1)) &&
      decide (ipw.getD (p - 1) 0 ≠ 0) &&
      validNibbleSeq no_probes ipw (mapping ||| 2 ^ (p - 1)) rest

/-- The inner `while (info)` loop of `map_probe_core` for interface `i`
whose packed field prints as `field`: consume one nibble, validate it,
record `probe_order`, `probe_to_core_map`, `calculated_ip_core_width`,
the duplicate mask and the probe counter, then shift.  `fuel = 16` makes
the recursion structural; it is exact for `uint64` fields. -/
def decodeNibbles (no_probes : Nat) (ipw : List Nat) (i field : Nat) :
    Nat → Nat → Nat → MapSt → MapSt × Bool
  | _, 0, _, st => (st, true)
  | 0, _, _, st => (st, true)
  | fuel + 1, info, idx, st =>
      let probe := info % 16
      if 1 ≤ probe ∧ probe ≤ MAXIMUM_SUPPORTED_PROBE_CORE ∧ probe ≤ no_probes then
        let p := probe - 1
        if st.mapping.testBit p then
          ({ st with msgs := st.msgs ++ [.duplicatedProbe idx (i + 1) field (p + 1)] }, false)
        else if ipw.getD p 0 = 0 then
          ({ st with msgs := st.msgs ++ [.probeWidthZero (p + 1) idx (i + 1) field] }, false)
        else
          let m := st.mods.getD i {}
          decodeNibbles no_probes ipw i field fuel (info / 16) (idx + 1)
            { st with
              mods := st.mods.set i { m with probe_order := m.probe_order ++ [p] },
              p2c := st.p2c.set p ⟨i, st.calcW.getD i 0⟩,
              calcW := st.calcW.set i (st.calcW.getD i 0 + ipw.getD p 0),
              mapping := st.mapping ||| 2 ^ p,
              native_probe := st.native_probe + 1 }
      else
        ({ st with msgs := st.msgs ++ [.invalidProbe idx (i + 1) field probe] }, false)

/-- The `for (i = 0; i < 15 && status; i++)` sweep of `map_probe_core`:
interfaces below `native_core` must have a nonzero packed field which is
decoded nibble by nibble; the rest must be zero. -/
def sweep (no_probes : Nat) (ipw ipinfo : List Nat) (native_core : Nat) :
    List Nat → MapSt → MapSt × Bool
  | [], st => (st, true)
  | i :: rest, st =>
      let field := ipinfo.getD i 0 % 2 ^ 64
      if i < native_core then
        if field = 0 then
          ({ st with msgs := st.msgs ++ [.ifProbesShouldNotBeNull (i + 1)] }, false)
        else
          match decodeNibbles no_probes ipw i field 16 field 0 st with
          | (st1, false) => (st1, false)
          | (st1, true) => sweep no_probes ipw ipinfo native_core rest st1
      else
        if field ≠ 0 then
          ({ st with msgs := st.msgs ++ [.ifProbesShouldBeNull (i + 1) field] }, false)
        else sweep no_probes ipw ipinfo native_core rest st

/-- The zero-knowledge pre-check loop of `map_probe_core` over the given
modules, started from the subsystem's derived state and an empty duplicate
mask. -/
def mapPre (sub : OCLA_DEBUG_SUBSYSTEM_MODULE) (mods : List OCLA_MODULE) : MapSt × Bool :=
  mods.foldl
    (fun (acc : MapSt × Bool) m =>
      if m.probe_order.length > 0 ∨ sub.calculated_ip_core_width.getD m.index 0 > 0 then
        ({ acc.1 with msgs := acc.1.msgs ++ [Msg.startWithMapping m.index] }, false)
      else acc)
    ({ mods := mods, p2c := sub.probe_to_core_map,
       calcW := sub.calculated_ip_core_width, mapping := 0,
       native_probe := 0, msgs := [Msg.zeroKnowledge] }, true)

/-- `native_core` of `map_probe_core`: `cores` in NATIVE mode, the uint32
`cores - 1` otherwise. -/
def nativeCore (sub : OCLA_DEBUG_SUBSYSTEM_MODULE) : Nat :=
  if sub.mode = "NATIVE" then sub.cores else (sub.cores + 2 ^ 32 - 1) % 2 ^ 32

/-- The probe-count comparison `native_probe == no_probes` after the
sweep, run only while the status still holds. -/
def mapCalcCheck (sub : OCLA_DEBUG_SUBSYSTEM_MODULE) (sw : MapSt × Bool) : MapSt × Bool :=
  if sw.2 = true then
    let stc := { sw.1 with msgs := sw.1.msgs ++
      [Msg.calcProbeMustMatch sw.1.native_probe sub.no_probes] }
    if sw.1.native_probe ≠ sub.no_probes then
      ({ stc with msgs := stc.msgs ++ [Msg.comparisonFailed] }, false)
    else (stc, true)
  else sw

/-- The per-core probe-ownership check: every native core owns at least
one probe, the AXI bridge core owns none. -/
def mapOwnership (sw2 : MapSt × Bool) : MapSt × Bool :=
  if sw2.2 = true then
    sw2.1.mods.foldl
      (fun (acc : MapSt × Bool) m =>
        if m.is_axi = false ∧ m.probe_order.length = 0 then
          ({ acc.1 with msgs := acc.1.msgs ++ [Msg.nativeCoreNoProbe m.index] }, false)
        else if m.is_axi = true ∧ m.probe_order.length ≠ 0 then
          ({ acc.1 with msgs := acc.1.msgs ++ [Msg.axiCoreHasProbe m.index] }, false)
        else acc)
      ({ sw2.1 with msgs := sw2.1.msgs ++ [Msg.coreMustHaveProbe] }, true)
  else sw2

/-- `OCLA_DEBUG_SUBSYSTEM_MODULE::map_probe_core`, transliterated: the
zero-knowledge pre-check, then in NATIVE/NATIVE_AXI mode the nibble sweep
over the 15 interface slots, the probe-count comparison, the per-core
ownership check and the final width log. -/
def map_probe_core (sub : OCLA_DEBUG_SUBSYSTEM_MODULE) (mods : List OCLA_MODULE) :
    MapSt × Bool :=
  let pre := mapPre sub mods
  if pre.2 = true ∧ (sub.mode = "NATIVE" ∨ sub.mode = "NATIVE_AXI") then
    let st1 := { pre.1 with msgs := pre.1.msgs ++ [Msg.ifProbesMustBeValid] }
    let afterSweep :=
      if 0 < nativeCore sub ∧ nativeCore sub ≤ MAXIMUM_SUPPORTED_PROBE_CORE then
        mapOwnership (mapCalcCheck sub
          (sweep sub.no_probes sub.ip_probe_width sub.ip_probe_info (nativeCore sub)
            (List.range MAXIMUM_SUPPORTED_PROBE_CORE) st1))
      else
        ({ st1 with msgs := st1.msgs ++ [Msg.invalidNativeCores (nativeCore sub)] }, false)
    if afterSweep.2 = true then
      let widthMsgs : List Msg := (List.range (nativeCore sub)).map
        (fun i => Msg.coreWidthInfo (i + 1) (afterSweep.1.calcW.getD i 0))
      ({ afterSweep.1 with
          msgs := afterSweep.1.msgs ++ [Msg.coreWidthHeader] ++ widthMsgs }, true)
    else afterSweep
  else pre

theorem getD_set_eq {α : Type _} :
    ∀ (l : List α) (i : Nat) (a d : α), i < l.length → (l.set i a).getD i d = a := by
  intro l
  induction l with
  | nil => intro i a d h; simp at h
  | cons x xs ih =>
      intro i a d h
      cases i with
      | zero => rfl
      | succ j => exact ih j a d (by simpa using h)

theorem getD_set_ne {α : Type _} :
    ∀ (l : List α) (i j : Nat) (a : α) (d : α), i ≠ j →
      (l.set i a).getD j d = l.getD j d := by
  intro l
  induction l with
  | nil => intro i j a d h; simp
  | cons x xs ih =>
      intro i j a d h
      cases i with
      | zero =>
          cases j with
          | zero => exact absurd rfl h
          | succ k => rfl
      | succ i' =>
          cases j with
          | zero => rfl
          | succ k => exact ih i' k a d (by omega)

theorem set_getD_self {α : Type _} :
    ∀ (l : List α) (i : Nat) (d : α), l.set i (l.getD i d) = l := by
  intro l
  induction l with
  | nil => intro i d; rfl
  | cons x xs ih =>
      intro i d
      cases i with
      | zero => rfl
      | succ j => simpa using ih j d

theorem valid_testBit_false (no_probes : Nat) (ipw : List Nat) :
    ∀ (ns : List Nat) (mp : Nat), validNibbleSeq no_probes ipw mp ns = true →
      ∀ n ∈ ns, mp.testBit (n - 1) = false := by
  intro ns
  induction ns with
  | nil => intro mp _ n hn; simp at hn
  | cons p rest ih =>
      intro mp hv n hn
      unfold validNibbleSeq at hv
      simp only [Bool.and_eq_true, Bool.not_eq_true', decide_eq_true_eq] at hv
      obtain ⟨⟨⟨⟨⟨_, _⟩, _⟩, hfresh⟩, _⟩, hrest⟩ := hv
      rcases List.mem_cons.mp hn with h1 | h2
      · subst h1; exact hfresh
      · have := ih (mp ||| 2 ^ (p - 1)) hrest n h2
        rw [Nat.testBit_or] at this
        exact (Bool.or_eq_false_iff.mp this).1

theorem valid_tail_ne_head (no_probes : Nat) (ipw : List Nat) (p : Nat) (rest : List Nat)
    (mp : Nat) (hv : validNibbleSeq no_probes ipw (mp ||| 2 ^ (p - 1)) rest = true) :
    ∀ n ∈ rest, n - 1 ≠ p - 1 := by
  intro n hn he
  have := valid_testBit_false no_probes ipw rest (mp ||| 2 ^ (p - 1)) hv n hn
  rw [Nat.testBit_or, he, Nat.testBit_two_pow_self] at this
  simp at this

theorem set_oob {α : Type _} :
    ∀ (l : List α) (i : Nat) (a : α), l.length ≤ i → l.set i a = l := by
  intro l
  induction l with
  | nil => intro i a _; rfl
  | cons x xs ih =>
      intro i a h
      cases i with
      | zero => simp at h
      | succ j => simpa using ih j a (by simpa using h)

/-- The state update performed for one accepted nibble (0-based probe `p`
assigned to interface `i`), exactly the five statements of the loop
body. -/
def stepSt (ipw : List Nat) (i p : Nat) (st : MapSt) : MapSt :=
  let m := st.mods.getD i {}
  { st with
    mods := st.mods.set i { m with probe_order := m.probe_order ++ [p] },
    p2c := st.p2c.set p ⟨i, st.calcW.getD i 0⟩,
    calcW := st.calcW.set i (st.calcW.getD i 0 + ipw.getD p 0),
    mapping := st.mapping ||| 2 ^ p,
    native_probe := st.native_probe + 1 }

/-- What one full run of the inner nibble loop does to the state, in terms
of the consumed nibble list `ns` (1-based probe indices, LSB first). -/
def runsTo (ipw : List Nat) (i : Nat) (ns : List Nat) (st res : MapSt) : Prop :=
  res.mods = st.mods.set i { st.mods.getD i {} with
    probe_order := (st.mods.getD i {}).probe_order ++ ns.map (fun p => p - 1) } ∧
  res.calcW = st.calcW.set i (st.calcW.getD i 0 +
    (ns.map (fun p => ipw.getD (p - 1) 0)).sum) ∧
  res.mapping = st.mapping ||| orBits ns ∧
  res.native_probe = st.native_probe + ns.length ∧
  res.msgs = st.msgs ∧
  res.p2c.length = st.p2c.length ∧
  (∀ q d, (∀ n ∈ ns, n - 1 ≠ q) → res.p2c.getD q d = st.p2c.getD q d) ∧
  (i < st.calcW.length →
    ∀ j, j < ns.length → ns.getD j 0 - 1 < st.p2c.length →
      res.p2c.getD (ns.getD j 0 - 1) {} =
        ⟨i, st.calcW.getD i 0 + ((ns.take j).map (fun p => ipw.getD (p - 1) 0)).sum⟩)

theorem runsTo_nil (ipw : List Nat) (i : Nat) (st : MapSt) : runsTo ipw i [] st st := by
  unfold runsTo
  refine ⟨?_, ?_, by simp [orBits], by simp, rfl, rfl, fun q d _ => rfl,
    fun _ j hj _ => absurd hj (by simp)⟩
  · rw [List.map_nil, List.append_nil]
    exact (set_getD_self _ _ _).symm
  · rw [List.map_nil, List.sum_nil, Nat.add_zero]
    exact (set_getD_self _ _ _).symm

theorem runsTo_cons (ipw : List Nat) (i p : Nat) (rest : List Nat) (st res : MapSt)
    (hfresh : ∀ n ∈ rest, n - 1 ≠ p - 1)
    (h : runsTo ipw i rest (stepSt ipw i (p - 1) st) res) :
    runsTo ipw i (p :: rest) st res := by
  obtain ⟨hmods, hcalc, hmap, hnat, hmsgs, hlen, hframe, hpos⟩ := h
  have hlenc : (stepSt ipw i (p - 1) st).calcW.length = st.calcW.length := by
    simp [stepSt]
  have hlenp : (stepSt ipw i (p - 1) st).p2c.length = st.p2c.length := by
    simp [stepSt]
  have hlenm : (stepSt ipw i (p - 1) st).mods.length = st.mods.length := by
    simp [stepSt]
  refine ⟨?_, ?_, ?_, ?_, ?_, ?_, ?_, ?_⟩
  · rw [hmods]
    by_cases hi : i < st.mods.length
    · have hget : (stepSt ipw i (p - 1) st).mods.getD i {} =
          { st.mods.getD i {} with
            probe_order := (st.mods.getD i {}).probe_order ++ [p - 1] } := by
        simp only [stepSt]
        exact getD_set_eq _ _ _ _ hi
      rw [hget]
      show (st.mods.set i _).set i _ = _
      rw [List.set_set]
      simp [List.append_assoc]
    · push_neg at hi
      have h1 : (stepSt ipw i (p - 1) st).mods = st.mods := by
        simp only [stepSt]
        exact set_oob _ _ _ hi
      rw [h1, set_oob _ _ _ hi, set_oob _ _ _ hi]
  · rw [hcalc]
    by_cases hi : i < st.calcW.length
    · have hget : (stepSt ipw i (p - 1) st).calcW.getD i 0 =
          st.calcW.getD i 0 + ipw.getD (p - 1) 0 := by
        simp only [stepSt]
        exact getD_set_eq _ _ _ _ hi
      rw [hget]
      show (st.calcW.set i _).set i _ = _
      rw [List.set_set]
      simp [Nat.add_assoc]
    · push_neg at hi
      have h1 : (stepSt ipw i (p - 1) st).calcW = st.calcW := by
        simp only [stepSt]
        exact set_oob _ _ _ hi
      rw [h1, set_oob _ _ _ hi, set_oob _ _ _ hi]
  · rw [hmap]
    show st.mapping ||| 2 ^ (p - 1) ||| orBits rest = _
    rw [Nat.or_assoc]
    rfl
  · rw [hnat]
    show st.native_probe + 1 + rest.length = st.native_probe + (rest.length + 1)
    omega
  · rw [hmsgs]
    rfl
  · rw [hlen, hlenp]
  · intro q d hq
    have hrest : ∀ n ∈ rest, n - 1 ≠ q := fun n hn => hq n (by simp [hn])
    rw [hframe q d hrest]
    show (st.p2c.set (p - 1) _).getD q d = st.p2c.getD q d
    exact getD_set_ne _ _ _ _ _ (hq p (by simp))
  · intro hic j hj hb
    cases j with
    | zero =>
        rw [List.getD_cons_zero] at hb ⊢
        rw [hframe (p - 1) {} hfresh]
        show (st.p2c.set (p - 1) _).getD (p - 1) {} = _
        rw [getD_set_eq _ _ _ _ hb]
        simp
    | succ j' =>
        have hj' : j' < rest.length := by simpa using hj
        rw [List.getD_cons_succ] at hb ⊢
        have := hpos (by rw [hlenc]; exact hic) j' hj' (by rw [hlenp]; exact hb)
        rw [this]
        have hget : (stepSt ipw i (p - 1) st).calcW.getD i 0 =
            st.calcW.getD i 0 + ipw.getD (p - 1) 0 := by
          simp only [stepSt]
          exact getD_set_eq _ _ _ _ hic
        rw [hget]
        simp [Nat.add_assoc]

theorem decodeNibbles_run (no_probes : Nat) (ipw : List Nat) (i field : Nat) :
    ∀ (fuel info idx : Nat) (st : MapSt),
      ((decodeNibbles no_probes ipw i field fuel info idx st).2 =
        validNibbleSeq no_probes ipw st.mapping (nibblesF fuel info)) ∧
      (validNibbleSeq no_probes ipw st.mapping (nibblesF fuel info) = true →
        runsTo ipw i (nibblesF fuel info) st
          (decodeNibbles no_probes ipw i field fuel info idx st).1) := by
  intro fuel
  induction fuel with
  | zero =>
      intro info idx st
      cases info with
      | zero => exact ⟨rfl, fun _ => runsTo_nil ipw i st⟩
      | succ n => exact ⟨rfl, fun _ => runsTo_nil ipw i st⟩
  | succ fuel ih =>
      intro info idx st
      cases info with
      | zero => exact ⟨rfl, fun _ => runsTo_nil ipw i st⟩
      | succ n =>
          have hns : nibblesF (fuel + 1) (n + 1) =
              (n + 1) % 16 :: nibblesF fuel ((n + 1) / 16) := by
            rw [nibblesF]
            rw [if_neg (Nat.succ_ne_zero n)]
          by_cases hrange : 1 ≤ (n + 1) % 16 ∧ (n + 1) % 16 ≤ MAXIMUM_SUPPORTED_PROBE_CORE ∧
              (n + 1) % 16 ≤ no_probes
          · by_cases hdup : st.mapping.testBit ((n + 1) % 16 - 1) = true
            · have hdec : decodeNibbles no_probes ipw i field (fuel + 1) (n + 1) idx st =
                  ({ st with msgs := st.msgs ++
                    [Msg.duplicatedProbe idx (i + 1) field ((n + 1) % 16 - 1 + 1)] }, false) := by
                simp only [decodeNibbles]
                rw [if_pos hrange, if_pos hdup]
              constructor
              · rw [hdec, hns]
                unfold validNibbleSeq
                simp [hdup]
              · intro hv
                rw [hns] at hv
                unfold validNibbleSeq at hv
                simp [hdup] at hv
            · have hdupb : st.mapping.testBit ((n + 1) % 16 - 1) = false := by
                simpa using hdup
              by_cases hw : ipw.getD ((n + 1) % 16 - 1) 0 = 0
              · have hdec : decodeNibbles no_probes ipw i field (fuel + 1) (n + 1) idx st =
                    ({ st with msgs := st.msgs ++
                      [Msg.probeWidthZero ((n + 1) % 16 - 1 + 1) idx (i + 1) field] }, false) := by
                  simp only [decodeNibbles]
                  rw [if_pos hrange, if_neg hdup, if_pos hw]
                have hw' : ipw[(n + 1) % 16 - 1]?.getD 0 = 0 := by
                  simpa [List.getD_eq_getElem?_getD] using hw
                constructor
                · rw [hdec, hns]
                  unfold validNibbleSeq
                  simp [hw']
                · intro hv
                  rw [hns] at hv
                  unfold validNibbleSeq at hv
                  simp only [Bool.and_eq_true, Bool.not_eq_true', decide_eq_true_eq] at hv
                  exact absurd hw hv.1.2
              · have hdec : decodeNibbles no_probes ipw i field (fuel + 1) (n + 1) idx st =
                    decodeNibbles no_probes ipw i field fuel ((n + 1) / 16) (idx + 1)
                      (stepSt ipw i ((n + 1) % 16 - 1) st) := by
                  simp only [decodeNibbles]
                  rw [if_pos hrange, if_neg hdup, if_neg hw]
                  rfl
                have hmapst : (stepSt ipw i ((n + 1) % 16 - 1) st).mapping =
                    st.mapping ||| 2 ^ ((n + 1) % 16 - 1) := rfl
                constructor
                · have hw2 : ¬ ipw[(n + 1) % 16 - 1]?.getD 0 = 0 := by
                    simpa [List.getD_eq_getElem?_getD] using hw
                  rw [hdec, hns]
                  unfold validNibbleSeq
                  rw [(ih ((n + 1) / 16) (idx + 1) (stepSt ipw i ((n + 1) % 16 - 1) st)).1,
                    hmapst]
                  simp [hrange.1, hrange.2.1, hrange.2.2, hdupb, hw2]
                · intro hv
                  rw [hns] at hv
                  unfold validNibbleSeq at hv
                  simp only [Bool.and_eq_true, Bool.not_eq_true', decide_eq_true_eq] at hv
                  have hvtail : validNibbleSeq no_probes ipw
                      (st.mapping ||| 2 ^ ((n + 1) % 16 - 1))
                      (nibblesF fuel ((n + 1) / 16)) = true := hv.2
                  rw [hns]
                  refine runsTo_cons ipw i ((n + 1) % 16) _ st _ ?_ ?_
                  · exact valid_tail_ne_head no_probes ipw ((n + 1) % 16) _ st.mapping hvtail
                  · rw [hdec]
                    exact (ih ((n + 1) / 16) (idx + 1)
                      (stepSt ipw i ((n + 1) % 16 - 1) st)).2 hvtail
          · have hdec : decodeNibbles no_probes ipw i field (fuel + 1) (n + 1) idx st =
                ({ st with msgs := st.msgs ++
                  [Msg.invalidProbe idx (i + 1) field ((n + 1) % 16)] }, false) := by
              simp only [decodeNibbles]
              rw [if_neg hrange]
            constructor
            · rw [hdec, hns]
              symm
              rw [Bool.eq_false_iff]
              intro hcontra
              unfold validNibbleSeq at hcontra
              simp only [Bool.and_eq_true, Bool.not_eq_true', decide_eq_true_eq] at hcontra
              exact hrange ⟨hcontra.1.1.1.1.1, hcontra.1.1.1.1.2, hcontra.1.1.1.2⟩
            · intro hv
              rw [hns] at hv
              unfold validNibbleSeq at hv
              simp only [Bool.and_eq_true, Bool.not_eq_true', decide_eq_true_eq] at hv
              exact absurd ⟨hv.1.1.1.1.1, hv.1.1.1.1.2, hv.1.1.1.2⟩ hrange

theorem validNibbleSeq_append (np : Nat) (ipw : List Nat) :
    ∀ (xs ys : List Nat) (mp : Nat),
      validNibbleSeq np ipw mp (xs ++ ys) =
        (validNibbleSeq np ipw mp xs &&
          validNibbleSeq np ipw (mp ||| orBits xs) ys) := by
  intro xs
  induction xs with
  | nil =>
      intro ys mp
      simp [validNibbleSeq, orBits]
  | cons p xs ih =>
      intro ys mp
      have h1 : validNibbleSeq np ipw mp ((p :: xs) ++ ys) =
          (decide (1 ≤ p) && decide (p ≤ MAXIMUM_SUPPORTED_PROBE_CORE) &&
            decide (p ≤ np) && !(mp.testBit (p - 1)) &&
            decide (ipw.getD (p - 1) 0 ≠ 0) &&
            validNibbleSeq np ipw (mp ||| 2 ^ (p - 1)) (xs ++ ys)) := rfl
      have h2 : validNibbleSeq np ipw mp (p :: xs) =
          (decide (1 ≤ p) && decide (p ≤ MAXIMUM_SUPPORTED_PROBE_CORE) &&
            decide (p ≤ np) && !(mp.testBit (p - 1)) &&
            decide (ipw.getD (p - 1) 0 ≠ 0) &&
            validNibbleSeq np ipw (mp ||| 2 ^ (p - 1)) xs) := rfl
      have h3 : orBits (p :: xs) = 2 ^ (p - 1) ||| orBits xs := rfl
      rw [h1, h2, h3, ih ys (mp ||| 2 ^ (p - 1)), ← Nat.or_assoc]
      simp [Bool.and_assoc]

theorem valid_unary (np : Nat) (ipw : List Nat) :
    ∀ (ns : List Nat) (mp : Nat), validNibbleSeq np ipw mp ns = true →
      ∀ p ∈ ns, 1 ≤ p ∧ p ≤ MAXIMUM_SUPPORTED_PROBE_CORE ∧ p ≤ np ∧
        ipw.getD (p - 1) 0 ≠ 0 := by
  intro ns
  induction ns with
  | nil => intro mp _ p hp; simp at hp
  | cons q rest ih =>
      intro mp hv p hp
      unfold validNibbleSeq at hv
      simp only [Bool.and_eq_true, Bool.not_eq_true', decide_eq_true_eq] at hv
      rcases List.mem_cons.mp hp with h1 | h2
      · subst h1
        exact ⟨hv.1.1.1.1.1, hv.1.1.1.1.2, hv.1.1.1.2, hv.1.2⟩
      · exact ih _ hv.2 p h2

theorem valid_nodup (np : Nat) (ipw : List Nat) :
    ∀ (ns : List Nat) (mp : Nat), validNibbleSeq np ipw mp ns = true →
      (ns.map (fun p => p - 1)).Nodup := by
  intro ns
  induction ns with
  | nil => intro mp _; simp
  | cons q rest ih =>
      intro mp hv
      unfold validNibbleSeq at hv
      simp only [Bool.and_eq_true, Bool.not_eq_true', decide_eq_true_eq] at hv
      rw [List.map_cons, List.nodup_cons]
      refine ⟨?_, ih _ hv.2⟩
      intro hmem
      obtain ⟨n, hn, he⟩ := List.mem_map.mp hmem
      exact valid_tail_ne_head np ipw q rest mp hv.2 n hn he

theorem sweep_success (np : Nat) (ipw ipinfo : List Nat) (nc : Nat) :
    ∀ (idxs : List Nat) (st : MapSt),
      (sweep np ipw ipinfo nc idxs st).2 = true →
      validNibbleSeq np ipw st.mapping
        ((idxs.filter (fun i => decide (i < nc))).flatMap
          (fun i => nibblesF 16 (ipinfo.getD i 0 % 2 ^ 64))) = true ∧
      (∀ i ∈ idxs, i < nc → ipinfo.getD i 0 % 2 ^ 64 ≠ 0) ∧
      (∀ i ∈ idxs, ¬ i < nc → ipinfo.getD i 0 % 2 ^ 64 = 0) := by
  intro idxs
  induction idxs with
  | nil =>
      intro st _
      refine ⟨rfl, ?_, ?_⟩ <;> intro i hi <;> simp at hi
  | cons i rest ih =>
      intro st hsw
      unfold sweep at hsw
      by_cases hic : i < nc
      · rw [if_pos hic] at hsw
        by_cases hf : ipinfo.getD i 0 % 2 ^ 64 = 0
        · rw [if_pos hf] at hsw
          simp at hsw
        · rw [if_neg hf] at hsw
          cases hdec : decodeNibbles np ipw i (ipinfo.getD i 0 % 2 ^ 64) 16
              (ipinfo.getD i 0 % 2 ^ 64) 0 st with
          | mk st1 b =>
              rw [hdec] at hsw
              cases b with
              | false => simp at hsw
              | true =>
                  have hsw' : (sweep np ipw ipinfo nc rest st1).2 = true := hsw
                  have hvi : validNibbleSeq np ipw st.mapping
                      (nibblesF 16 (ipinfo.getD i 0 % 2 ^ 64)) = true := by
                    have h1 := (decodeNibbles_run np ipw i (ipinfo.getD i 0 % 2 ^ 64) 16
                      (ipinfo.getD i 0 % 2 ^ 64) 0 st).1
                    rw [hdec] at h1
                    exact h1.symm
                  have hrun := (decodeNibbles_run np ipw i (ipinfo.getD i 0 % 2 ^ 64) 16
                    (ipinfo.getD i 0 % 2 ^ 64) 0 st).2 hvi
                  rw [hdec] at hrun
                  have hmap1 : st1.mapping = st.mapping |||
                      orBits (nibblesF 16 (ipinfo.getD i 0 % 2 ^ 64)) := hrun.2.2.1
                  obtain ⟨hvr, hmem1, hmem2⟩ := ih st1 hsw'
                  refine ⟨?_, ?_, ?_⟩
                  · have hfil : (i :: rest).filter (fun i => decide (i < nc)) =
                        i :: rest.filter (fun i => decide (i < nc)) := by
                      simp [List.filter_cons, hic]
                    rw [hfil, List.flatMap_cons, validNibbleSeq_append]
                    rw [hvi]
                    rw [← hmap1]
                    rw [hvr]
                    rfl
                  · intro j hj hjc
                    rcases List.mem_cons.mp hj with h1 | h2
                    · subst h1; exact hf
                    · exact hmem1 j h2 hjc
                  · intro j hj hjc
                    rcases List.mem_cons.mp hj with h1 | h2
                    · subst h1; exact absurd hic hjc
                    · exact hmem2 j h2 hjc
      · rw [if_neg hic] at hsw
        by_cases hf : ipinfo.getD i 0 % 2 ^ 64 ≠ 0
        · rw [if_pos hf] at hsw
          simp at hsw
        · rw [if_neg hf] at hsw
          push_neg at hf
          obtain ⟨hvr, hmem1, hmem2⟩ := ih st hsw
          refine ⟨?_, ?_, ?_⟩
          · have hfil : (i :: rest).filter (fun i => decide (i < nc)) =
                rest.filter (fun i => decide (i < nc)) := by
              simp [List.filter_cons, hic]
            rw [hfil]
            exact hvr
          · intro j hj hjc
            rcases List.mem_cons.mp hj with h1 | h2
            · subst h1; exact absurd hjc hic
            · exact hmem1 j h2 hjc
          · intro j hj hjc
            rcases List.mem_cons.mp hj with h1 | h2
            · subst h1; exact hf
            · exact hmem2 j h2 hjc

theorem mapOwnership_status (sw2 : MapSt × Bool) :
    (mapOwnership sw2).2 = true → sw2.2 = true := by
  unfold mapOwnership
  by_cases h : sw2.2 = true
  · exact fun _ => h
  · rw [if_neg h]
    exact fun hh => hh

theorem mapCalcCheck_status (sub : OCLA_DEBUG_SUBSYSTEM_MODULE) (sw : MapSt × Bool) :
    (mapCalcCheck sub sw).2 = true → sw.2 = true := by
  unfold mapCalcCheck
  by_cases h : sw.2 = true
  · exact fun _ => h
  · rw [if_neg h]
    exact fun hh => hh

theorem mapPre_mapping (sub : OCLA_DEBUG_SUBSYSTEM_MODULE) (mods : List OCLA_MODULE) :
    (mapPre sub mods).1.mapping = 0 := by
  unfold mapPre
  suffices h : ∀ (ms : List OCLA_MODULE) (acc : MapSt × Bool),
      ((ms.foldl
        (fun (acc : MapSt × Bool) m =>
          if m.probe_order.length > 0 ∨ sub.calculated_ip_core_width.getD m.index 0 > 0 then
            ({ acc.1 with msgs := acc.1.msgs ++ [Msg.startWithMapping m.index] }, false)
          else acc) acc).1.mapping = acc.1.mapping) by
    rw [h]
  intro ms
  induction ms with
  | nil => intro acc; rfl
  | cons m ms ih =>
      intro acc
      rw [List.foldl_cons, ih]
      by_cases hc : m.probe_order.length > 0 ∨ sub.calculated_ip_core_width.getD m.index 0 > 0
      · rw [if_pos hc]
      · rw [if_neg hc]

/-- Dismantling a successful `map_probe_core` run: the pre-check passed,
the native-core count is in range and the sweep over all 15 interface
slots succeeded. -/
theorem map_success_parts (sub : OCLA_DEBUG_SUBSYSTEM_MODULE) (mods : List OCLA_MODULE)
    (hmode : sub.mode = "NATIVE" ∨ sub.mode = "NATIVE_AXI")
    (h : (map_probe_core sub mods).2 = true) :
    (mapPre sub mods).2 = true ∧
    (0 < nativeCore sub ∧ nativeCore sub ≤ MAXIMUM_SUPPORTED_PROBE_CORE) ∧
    (sweep sub.no_probes sub.ip_probe_width sub.ip_probe_info (nativeCore sub)
      (List.range MAXIMUM_SUPPORTED_PROBE_CORE)
      { (mapPre sub mods).1 with
        msgs := (mapPre sub mods).1.msgs ++ [Msg.ifProbesMustBeValid] }).2 = true := by
  unfold map_probe_core at h
  by_cases hc1 : (mapPre sub mods).2 = true ∧
      (sub.mode = "NATIVE" ∨ sub.mode = "NATIVE_AXI")
  · rw [if_pos hc1] at h
    simp only [] at h
    by_cases hc2 : 0 < nativeCore sub ∧ nativeCore sub ≤ MAXIMUM_SUPPORTED_PROBE_CORE
    · rw [if_pos hc2] at h
      by_cases hc3 : (mapOwnership (mapCalcCheck sub
          (sweep sub.no_probes sub.ip_probe_width sub.ip_probe_info (nativeCore sub)
            (List.range MAXIMUM_SUPPORTED_PROBE_CORE)
            { (mapPre sub mods).1 with
              msgs := (mapPre sub mods).1.msgs ++ [Msg.ifProbesMustBeValid] }))).2 = true
      · exact ⟨hc1.1, hc2, mapCalcCheck_status _ _ (mapOwnership_status _ hc3)⟩
      · rw [if_neg hc3] at h
        exact absurd h hc3
    · rw [if_neg hc2] at h
      simp at h
  · rw [if_neg hc1] at h
    exact absurd ⟨h, hmode⟩ hc1

/-- The concrete subsystem of the claim's mapping-decoder example:
NATIVE, two cores, three probes of widths 4, 8, 2; interface 1 gets probes
{1,2} (packed field 0x21), interface 2 gets probe {3} (packed field 0x3). -/
def exSubC1 : OCLA_DEBUG_SUBSYSTEM_MODULE :=
  { mode := "NATIVE", cores := 2, no_probes := 3,
    ip_probe_width := [4, 8, 2, 0, 0, 0, 0, 0, 0, 0, 0, 0, 0, 0, 0],
    ip_probe_info := [33, 3, 0, 0, 0, 0, 0, 0, 0, 0, 0, 0, 0, 0, 0] }

/-- The two cores of the mapping-decoder example. -/
def exModsC1 : List OCLA_MODULE :=
  [{ name := "m0", index := 0 }, { name := "m1", index := 1 }]

/-- Claim C1: the mapping decoder consumes a packed field one nibble at a
time from the least-significant end, and a valid nibble holding 1-based
probe index `p` appends `p-1` to interface `i`'s probe order, sets
`probeToCore[p-1]` to `{core := i, offset := calculatedCoreWidth[i]}` and
then adds `probeWidth[p-1]` to `calculatedCoreWidth[i]` (the `runsTo`
closed form, with per-nibble prefix-sum offsets); on the claim's concrete
example the decoder produces exactly the claimed widths, mapping and probe
orders. -/
theorem c1_mapping_decoder :
    (∀ (no_probes : Nat) (ipw : List Nat) (i field fuel info idx : Nat) (st : MapSt),
      validNibbleSeq no_probes ipw st.mapping (nibblesF fuel info) = true →
      runsTo ipw i (nibblesF fuel info) st
        (decodeNibbles no_probes ipw i field fuel info idx st).1) ∧
    ((map_probe_core exSubC1 exModsC1).2 = true ∧
     (map_probe_core exSubC1 exModsC1).1.calcW =
       [12, 2, 0, 0, 0, 0, 0, 0, 0, 0, 0, 0, 0, 0, 0] ∧
     (map_probe_core exSubC1 exModsC1).1.p2c.getD 0 {} = ⟨0, 0⟩ ∧
     (map_probe_core exSubC1 exModsC1).1.p2c.getD 1 {} = ⟨0, 4⟩ ∧
     (map_probe_core exSubC1 exModsC1).1.p2c.getD 2 {} = ⟨1, 0⟩ ∧
     (map_probe_core exSubC1 exModsC1).1.mods.map (fun m => m.probe_order) =
       [[0, 1], [2]]) :=
  ⟨fun no_probes ipw i field fuel info idx st hv =>
    (decodeNibbles_run no_probes ipw i field fuel info idx st).2 hv, by decide⟩

/-- Claim C1 witness: the general nibble-step characterization applied to
the single-interface field 0x21 (probes 1 then 2) from a fresh state. -/
theorem c1_witness :
    runsTo [4, 8, 2] 0 (nibblesF 16 33)
      { mods := [{}], p2c := List.replicate 15 {}, calcW := List.replicate 15 0 }
      (decodeNibbles 3 [4, 8, 2] 0 33 16 33 0
        { mods := [{}], p2c := List.replicate 15 {}, calcW := List.replicate 15 0 }).1 :=
  c1_mapping_decoder.1 3 [4, 8, 2] 0 33 16 33 0
    { mods := [{}], p2c := List.replicate 15 {}, calcW := List.replicate 15 0 } (by decide)

/-- A successful `map_probe_core` run in NATIVE/NATIVE_AXI mode implies
the whole nibble sweep was valid: every consumed nibble is in range, its
probe width is nonzero, and no probe index repeats anywhere. -/
theorem map_success_valid (sub : OCLA_DEBUG_SUBSYSTEM_MODULE) (mods : List OCLA_MODULE)
    (hmode : sub.mode = "NATIVE" ∨ sub.mode = "NATIVE_AXI")
    (h : (map_probe_core sub mods).2 = true) :
    (∀ i, i < nativeCore sub →
      ∀ p ∈ nibblesF 16 (sub.ip_probe_info.getD i 0 % 2 ^ 64),
        1 ≤ p ∧ p ≤ MAXIMUM_SUPPORTED_PROBE_CORE ∧ p ≤ sub.no_probes ∧
          sub.ip_probe_width.getD (p - 1) 0 ≠ 0) ∧
    ((((List.range MAXIMUM_SUPPORTED_PROBE_CORE).filter
        (fun i => decide (i < nativeCore sub))).flatMap
      (fun i => nibblesF 16 (sub.ip_probe_info.getD i 0 % 2 ^ 64))).map
        (fun p => p - 1)).Nodup ∧
    (∀ i, i < nativeCore sub → sub.ip_probe_info.getD i 0 % 2 ^ 64 ≠ 0) := by
  obtain ⟨hpre, hnc, hsw⟩ := map_success_parts sub mods hmode h
  have hmap0 : ({ (mapPre sub mods).1 with
      msgs := (mapPre sub mods).1.msgs ++ [Msg.ifProbesMustBeValid] } : MapSt).mapping = 0 := by
    show (mapPre sub mods).1.mapping = 0
    exact mapPre_mapping sub mods
  obtain ⟨hflat, hnz, _⟩ := sweep_success sub.no_probes sub.ip_probe_width
    sub.ip_probe_info (nativeCore sub) (List.range MAXIMUM_SUPPORTED_PROBE_CORE) _ hsw
  rw [hmap0] at hflat
  refine ⟨?_, ?_, ?_⟩
  · intro i hi p hp
    have hi15 : i ∈ List.range MAXIMUM_SUPPORTED_PROBE_CORE :=
      List.mem_range.mpr (Nat.lt_of_lt_of_le hi hnc.2)
    have hifil : i ∈ (List.range MAXIMUM_SUPPORTED_PROBE_CORE).filter
        (fun i => decide (i < nativeCore sub)) :=
      List.mem_filter.mpr ⟨hi15, by simpa using hi⟩
    have hpf : p ∈ ((List.range MAXIMUM_SUPPORTED_PROBE_CORE).filter
        (fun i => decide (i < nativeCore sub))).flatMap
        (fun i => nibblesF 16 (sub.ip_probe_info.getD i 0 % 2 ^ 64)) :=
      List.mem_flatMap.mpr ⟨i, hifil, hp⟩
    exact valid_unary sub.no_probes sub.ip_probe_width _ 0 hflat p hpf
  · exact valid_nodup sub.no_probes sub.ip_probe_width _ 0 hflat
  · intro i hi
    exact hnz i (List.mem_range.mpr (Nat.lt_of_lt_of_le hi hnc.2)) hi

/-- A cell instantiation as the netlist collaborator exposes it: type and
instance name (both with leading escape characters). -/
structure Cell where
  ctype : String
  cname : String
  deriving Repr, DecidableEq

/-- A module of the design: its name and its cells, in design order. -/
structure DMod where
  mname : String
  cells : List Cell
  deriving Repr, DecidableEq

/-- A design: its modules in scan order and the designated top module. -/
structure Design where
  dmods : List DMod
  top : String
  deriving Repr, DecidableEq

/-- One scan of `check_unique_ocla_debug_subsystem`: one entry per cell
whose type equals the current target name, in module-then-cell order (the
source pushes `m->name` once per matching cell). -/
def parents (d : Design) (target : String) : List (String × String) :=
  d.dmods.flatMap (fun m => m.cells.filterMap
    (fun c => if c.ctype = target then some (m.mname, c.cname) else none))

/-- The connection-chain update for one matching cell: the new cell name
is prepended, the previous chain loses its leading escape character. -/
def updConn (conn : String) (cname : String) : String :=
  if conn.length > 0 then cname ++ "." ++ conn.drop 1 else cname

/-- The connection-chain update of one whole scan: cells are folded in
scan order, but only from level 1 on. -/
def levelConn (d : Design) (target : String) (level : Nat) (conn : String) : String :=
  if level ≠ 0 then (parents d target).foldl (fun c pc => updConn c pc.2) conn else conn

/-- The while loop of `check_unique_ocla_debug_subsystem`, fuel-indexed
(`none` models the source's divergence on a cyclic design that always has
exactly one parent): scan, count the instantiations, stop at the top with
success only from level 2 on, fail on zero or several instantiations. -/
def resolveAux (d : Design) : Nat → String → Nat → String → String →
    Option (Bool × String × String)
  | 0, _, _, _, _ => none
  | fuel + 1, target, level, conn, inst =>
      if (parents d target).length = 1 then
        if ((parents d target).headD ("", "")).1 = d.top then
          if level + 1 ≥ 2 then
            some (true, inst, levelConn d target level conn)
          else some (false, inst, levelConn d target level conn)
        else
          resolveAux d fuel ((parents d target).headD ("", "")).1 (level + 1)
            (levelConn d target level conn)
            (if level + 1 = 1 then ((parents d target).headD ("", "")).1 else inst)
      else some (false, inst, levelConn d target level conn)

/-- `OCLA_Analyzer::check_unique_ocla_debug_subsystem`, started at the
subsystem module name with level 0 and empty chain and instantiator. -/
def check_unique_ocla_debug_subsystem (d : Design) (fuel : Nat)
    (module_name : String) : Option (Bool × String × String) :=
  resolveAux d fuel module_name 0 "" ""

/-- A unique instantiation chain from `t` up to the design top, as claim
C3 words it: step `(m, c)` records that exactly one cell (named `c`, in
module `m`) instantiates the current target, intermediate parents are not
the top, and the last parent is the top. -/
def chainSpec (d : Design) : String → List (String × String) → Prop
  | _, [] => False
  | t, (m, c) :: rest =>
      parents d t = [(m, c)] ∧
      (match rest with
       | [] => m = d.top
       | _ :: _ => m ≠ d.top ∧ chainSpec d m rest)

/-- The connection chain built from the recorded instance names, nearest
instantiation first (each later, higher-level name is prepended). -/
def chainString (cs : List String) : String :=
  cs.foldl (fun conn cn => updConn conn cn) ""

theorem resolveAux_spec (d : Design) :
    ∀ (fuel : Nat) (t : String) (level : Nat) (conn inst : String), 1 ≤ level →
      (∀ i c, resolveAux d fuel t level conn inst = some (true, i, c) →
        ∃ steps, steps ≠ [] ∧ steps.length ≤ fuel ∧ chainSpec d t steps ∧ i = inst ∧
          c = (steps.map Prod.snd).foldl updConn conn) ∧
      (∀ steps, chainSpec d t steps → steps.length ≤ fuel →
        resolveAux d fuel t level conn inst =
          some (true, inst, (steps.map Prod.snd).foldl updConn conn)) := by
  intro fuel
  induction fuel with
  | zero =>
      intro t level conn inst _
      constructor
      · intro i c h
        simp [resolveAux] at h
      · intro steps hc hlen
        cases steps with
        | nil => exact absurd hc (by simp [chainSpec])
        | cons s rest => simp at hlen
  | succ fuel ih =>
      intro t level conn inst hlev
      have hlc : levelConn d t level conn =
          (parents d t).foldl (fun c pc => updConn c pc.2) conn := by
        unfold levelConn
        rw [if_pos (by omega)]
      constructor
      · intro i c h
        unfold resolveAux at h
        by_cases h1 : (parents d t).length = 1
        · obtain ⟨x, hx⟩ := List.length_eq_one.mp h1
          rw [if_pos h1] at h
          have hhd : ((parents d t).headD ("", "")) = x := by rw [hx]; rfl
          by_cases h2 : ((parents d t).headD ("", "")).1 = d.top
          · rw [if_pos h2] at h
            rw [if_pos (by omega)] at h
            simp only [Option.some.injEq, Prod.mk.injEq] at h
            refine ⟨[x], by simp, by simp, ?_, h.2.1.symm, ?_⟩
            · show parents d t = [(x.1, x.2)] ∧ x.1 = d.top
              rw [hhd] at h2
              exact ⟨by rw [hx], h2⟩
            · rw [← h.2.2, hlc, hx]
              rfl
          · rw [if_neg h2] at h
            rw [if_neg (show ¬ (level + 1 = 1) by omega)] at h
            obtain ⟨steps', hne, hlen', hcs, hi, hcc⟩ :=
              (ih ((parents d t).headD ("", "")).1 (level + 1)
                (levelConn d t level conn) inst (by omega)).1 i c h
            refine ⟨x :: steps', by simp, by simpa using Nat.succ_le_succ hlen', ?_, hi, ?_⟩
            · show parents d t = [(x.1, x.2)] ∧ _
              refine ⟨by rw [hx], ?_⟩
              cases steps' with
              | nil => exact absurd rfl hne
              | cons y ys =>
                  rw [hhd] at h2 hcs
                  exact ⟨h2, hcs⟩
            · rw [hcc, List.map_cons, List.foldl_cons, hlc, hx]
              rfl
        · rw [if_neg h1] at h
          simp at h
      · intro steps hc hlen
        cases steps with
        | nil => exact absurd hc (by simp [chainSpec])
        | cons x rest =>
            obtain ⟨hp, hrest⟩ := hc
            unfold resolveAux
            have h1 : (parents d t).length = 1 := by rw [hp]; rfl
            rw [if_pos h1]
            have hhd : ((parents d t).headD ("", "")) = (x.1, x.2) := by rw [hp]; rfl
            cases rest with
            | nil =>
                have htop : ((parents d t).headD ("", "")).1 = d.top := by
                  rw [hhd]
                  exact hrest
                rw [if_pos htop, if_pos (by omega)]
                rw [hlc, hp]
                rfl
            | cons y ys =>
                obtain ⟨hnt, hcs'⟩ := hrest
                have hntop : ¬ ((parents d t).headD ("", "")).1 = d.top := by
                  rw [hhd]
                  exact hnt
                rw [if_neg hntop, if_neg (show ¬ (level + 1 = 1) by omega)]
                have hrec := (ih ((parents d t).headD ("", "")).1 (level + 1)
                  (levelConn d t level conn) inst (by omega)).2 (y :: ys)
                  (by rw [hhd]; exact hcs') (by simpa using hlen)
                rw [hrec, List.map_cons, List.foldl_cons, hlc, hp]
                rfl

/-- Claim C3: the hierarchy resolver succeeds exactly when at every level
exactly one (module, cell) instantiation of the current target exists and
the design top is reached after at least two levels; on success it records
the connection chain of instance names built nearest-instantiation-first
(the fold `chainString`) and the level-1 parent as instantiator.  `fuel`
bounds the loop, which the source would not exit on a cyclic design. -/
theorem c3_unique_hierarchy (d : Design) (fuel : Nat) (s : String) :
    ((∃ inst conn, check_unique_ocla_debug_subsystem d fuel s = some (true, inst, conn)) ↔
      (∃ steps, 2 ≤ steps.length ∧ steps.length ≤ fuel ∧ chainSpec d s steps)) ∧
    (∀ steps, chainSpec d s steps → 2 ≤ steps.length → steps.length ≤ fuel →
      check_unique_ocla_debug_subsystem d fuel s =
        some (true, (steps.headD ("", "")).1,
          chainString ((steps.drop 1).map Prod.snd))) := by
  have compl : ∀ steps, chainSpec d s steps → 2 ≤ steps.length → steps.length ≤ fuel →
      check_unique_ocla_debug_subsystem d fuel s =
        some (true, (steps.headD ("", "")).1,
          chainString ((steps.drop 1).map Prod.snd)) := by
    intro steps hc h2 hf
    cases fuel with
    | zero => omega
    | succ fuel =>
        cases steps with
        | nil => exact absurd hc (by simp [chainSpec])
        | cons x rest =>
            obtain ⟨hp, hrest⟩ := hc
            cases rest with
            | nil => simp at h2
            | cons y ys =>
                obtain ⟨hnt, hcs'⟩ := hrest
                unfold check_unique_ocla_debug_subsystem resolveAux
                have h1 : (parents d s).length = 1 := by rw [hp]; rfl
                rw [if_pos h1]
                have hhd : ((parents d s).headD ("", "")) = (x.1, x.2) := by rw [hp]; rfl
                have hntop : ¬ ((parents d s).headD ("", "")).1 = d.top := by
                  rw [hhd]; exact hnt
                rw [if_neg hntop, if_pos rfl]
                have hlc0 : levelConn d s 0 "" = "" := by
                  unfold levelConn
                  rw [if_neg (by omega)]
                rw [hlc0]
                have hrec := (resolveAux_spec d fuel ((parents d s).headD ("", "")).1 1
                  "" ((parents d s).headD ("", "")).1 (by omega)).2 (y :: ys)
                  (by rw [hhd]; exact hcs') (by simpa using hf)
                rw [hrec, hhd]
                rfl
  refine ⟨⟨?_, ?_⟩, compl⟩
  · rintro ⟨inst, conn, h⟩
    cases fuel with
    | zero => simp [check_unique_ocla_debug_subsystem, resolveAux] at h
    | succ fuel =>
        unfold check_unique_ocla_debug_subsystem resolveAux at h
        by_cases h1 : (parents d s).length = 1
        · obtain ⟨x, hx⟩ := List.length_eq_one.mp h1
          rw [if_pos h1] at h
          have hhd : ((parents d s).headD ("", "")) = x := by rw [hx]; rfl
          by_cases h2 : ((parents d s).headD ("", "")).1 = d.top
          · rw [if_pos h2] at h
            rw [if_neg (by omega)] at h
            simp at h
          · rw [if_neg h2] at h
            rw [if_pos rfl] at h
            obtain ⟨steps', hne, hlen', hcs, _, _⟩ :=
              (resolveAux_spec d fuel ((parents d s).headD ("", "")).1 1
                (levelConn d s 0 "") ((parents d s).headD ("", "")).1 (by omega)).1
                inst conn h
            refine ⟨x :: steps', ?_, by simpa using Nat.succ_le_succ hlen', ?_⟩
            · cases steps' with
              | nil => exact absurd rfl hne
              | cons y ys => simp
            · show parents d s = [(x.1, x.2)] ∧ _
              refine ⟨by rw [hx], ?_⟩
              cases steps' with
              | nil => exact absurd rfl hne
              | cons y ys =>
                  rw [hhd] at h2 hcs
                  exact ⟨h2, hcs⟩
        · rw [if_neg h1] at h
          simp at h
  · rintro ⟨steps, h2, hf, hc⟩
    exact ⟨(steps.headD ("", "")).1, chainString ((steps.drop 1).map Prod.snd),
      compl steps hc h2 hf⟩

/-- The concrete three-level design used as claim C3's witness: the
subsystem is instantiated once in a wrapper, the wrapper once in a middle
module, the middle module once in the top. -/
def exDesignC3 : Design :=
  { dmods :=
      [{ mname := "\\sub", cells := [] },
       { mname := "\\wrap", cells := [{ ctype := "\\sub", cname := "\\s_inst" }] },
       { mname := "\\mid", cells := [{ ctype := "\\wrap", cname := "\\w_inst" }] },
       { mname := "\\top", cells := [{ ctype := "\\mid", cname := "\\m_inst" }] }],
    top := "\\top" }

/-- Claim C3 witness: on the concrete three-level design the resolver
succeeds with the wrapper as instantiator and the chain of the two upper
instance names, nearest first. -/
theorem c3_witness :
    check_unique_ocla_debug_subsystem exDesignC3 5 "\\sub" =
      some (true,
        (([("\\wrap", "\\s_inst"), ("\\mid", "\\w_inst"),
           ("\\top", "\\m_inst")] : List (String × String)).headD ("", "")).1,
        chainString ((([("\\wrap", "\\s_inst"), ("\\mid", "\\w_inst"),
           ("\\top", "\\m_inst")] : List (String × String)).drop 1).map Prod.snd)) :=
  (c3_unique_hierarchy exDesignC3 5 "\\sub").2
    [("\\wrap", "\\s_inst"), ("\\mid", "\\w_inst"), ("\\top", "\\m_inst")]
    (by refine ⟨?_, ?_, ?_, ?_, ?_, ?_⟩ <;> decide) (by decide) (by decide)

/-- `OCLA_Analyzer::dump_sigspec`: a single-chunk signal contributes one
fragment, inserted at the front of the accumulator; a multi-chunk signal
is iterated `rbegin` to `rend` — most-significant chunk first, chunks
being stored least-significant first, the convention under which both
backends print concatenations most-significant-left — each fragment
inserted at the front.  (The `autoint` flag only affects constant text,
which is abstract here.) -/
def dump_sigspec (sig : List SigChunk) (ss : List OCLA_SIGNAL) : List OCLA_SIGNAL :=
  match sig with
  | [c] => dump_sigchunk c :: ss
  | cs => cs.reverse.foldl (fun acc c => dump_sigchunk c :: acc) ss

/-- The spec's signal-fragment decomposition: the fragments of a signal
listed most-significant first (the order `dump_sigspec` prints them in),
i.e. the reverse of chunk storage order. -/
def decomposeMSB (sig : List SigChunk) : List OCLA_SIGNAL :=
  sig.reverse.map dump_sigchunk

theorem dump_sigspec_eq (sig : List SigChunk) (ss : List OCLA_SIGNAL) :
    dump_sigspec sig ss = sig.map dump_sigchunk ++ ss := by
  have hfold : ∀ (cs : List SigChunk) (acc : List OCLA_SIGNAL),
      cs.reverse.foldl (fun acc c => dump_sigchunk c :: acc) acc =
        cs.map dump_sigchunk ++ acc := by
    intro cs
    induction cs with
    | nil => intro acc; rfl
    | cons c cs ih =>
        intro acc
        rw [List.reverse_cons, List.foldl_append, ih]
        rfl
  match sig with
  | [c] => rfl
  | [] => rfl
  | c1 :: c2 :: rest =>
      show (c1 :: c2 :: rest).reverse.foldl _ ss = _
      exact hfold (c1 :: c2 :: rest) ss

/-- The probe connection name `\probe_{index+1}`. -/
def probeConnName (p : Nat) : String := "\\probe_" ++ toString (p + 1)

/-- The connection scan of `get_ocla_signals` for one probe of one module:
every connection of the matching instantiator cell is visited in order;
each whose name equals the probe name has its fragments prepended via
`dump_sigspec`; the triple carries (fragments, found, grew-each-time). -/
def lookupProbeConn (conns : List (String × List SigChunk)) (pname : String)
    (probes : List OCLA_SIGNAL) : List OCLA_SIGNAL × Bool × Bool :=
  conns.foldl
    (fun (acc : List OCLA_SIGNAL × Bool × Bool) conn =>
      if conn.1 = pname then
        (dump_sigspec conn.2 acc.1, true,
          acc.2.2 && decide (acc.1.length < (dump_sigspec conn.2 acc.1).length))
      else acc)
    (probes, false, true)

/-- The `for (i = probe_order.size()-1; i >= 0; i--)` walk for one non-AXI
module: probes are looked up in reverse declaration order, each
connection's fragments inserted at the front of the module's list. -/
def resolveOrderRev (conns : List (String × List SigChunk)) :
    List Nat → List OCLA_SIGNAL → Bool → List OCLA_SIGNAL × Bool
  | [], probes, ok => (probes, ok)
  | p :: rl, probes, ok =>
      resolveOrderRev conns rl (lookupProbeConn conns (probeConnName p) probes).1
        (ok && (lookupProbeConn conns (probeConnName p) probes).2.1 &&
          (lookupProbeConn conns (probeConnName p) probes).2.2)

/-- The whole probe resolution of one non-AXI module inside one matching
instantiator cell. -/
def resolveModuleProbes (conns : List (String × List SigChunk)) (order : List Nat)
    (probes : List OCLA_SIGNAL) : List OCLA_SIGNAL × Bool :=
  resolveOrderRev conns order.reverse probes true

theorem lookup_nomatch (pname : String) :
    ∀ (conns : List (String × List SigChunk)) (acc : List OCLA_SIGNAL × Bool × Bool),
      conns.filter (fun c => decide (c.1 = pname)) = [] →
      conns.foldl
        (fun (acc : List OCLA_SIGNAL × Bool × Bool) conn =>
          if conn.1 = pname then
            (dump_sigspec conn.2 acc.1, true,
              acc.2.2 && decide (acc.1.length < (dump_sigspec conn.2 acc.1).length))
          else acc) acc = acc := by
  intro conns
  induction conns with
  | nil => intro acc _; rfl
  | cons c cs ih =>
      intro acc hf
      rw [List.filter_cons] at hf
      by_cases hc : c.1 = pname
      · rw [if_pos (by simpa using hc)] at hf
        simp at hf
      · rw [if_neg (by simpa using hc)] at hf
        rw [List.foldl_cons, if_neg hc]
        exact ih acc hf

theorem lookup_single (conns : List (String × List SigChunk)) (pname : String)
    (fr : List SigChunk) (probes : List OCLA_SIGNAL)
    (h : conns.filter (fun c => decide (c.1 = pname)) = [(pname, fr)]) :
    lookupProbeConn conns pname probes =
      (fr.map dump_sigchunk ++ probes, true, decide (0 < fr.length)) := by
  unfold lookupProbeConn
  induction conns generalizing probes with
  | nil => simp at h
  | cons c cs ih =>
      rw [List.filter_cons] at h
      by_cases hc : c.1 = pname
      · rw [if_pos (by simpa using hc)] at h
        injection h with hcfr hrest
        rw [List.foldl_cons, if_pos hc]
        have hc2 : c.2 = fr := by
          have := congrArg Prod.snd hcfr
          simpa using this
        rw [lookup_nomatch pname cs _ hrest, hc2, dump_sigspec_eq]
        simp
      · rw [if_neg (by simpa using hc)] at h
        rw [List.foldl_cons, if_neg hc]
        exact ih probes h

theorem resolveOrderRev_spec (conns : List (String × List SigChunk))
    (F : Nat → List SigChunk) :
    ∀ (rl : List Nat) (probes : List OCLA_SIGNAL) (ok : Bool),
      (∀ p ∈ rl, conns.filter (fun c => decide (c.1 = probeConnName p)) =
        [(probeConnName p, F p)] ∧ F p ≠ []) →
      resolveOrderRev conns rl probes ok =
        (rl.reverse.flatMap (fun p => (F p).map dump_sigchunk) ++ probes, ok) := by
  intro rl
  induction rl with
  | nil => intro probes ok _; rfl
  | cons p rl ih =>
      intro probes ok hp
      obtain ⟨hu, hne⟩ := hp p (by simp)
      have hgrow : (0 < (F p).length) := List.length_pos.mpr hne
      have hok : (ok && true && decide (0 < (F p).length)) = ok := by
        simp [hgrow]
      have hstep : resolveOrderRev conns (p :: rl) probes ok =
          resolveOrderRev conns rl ((F p).map dump_sigchunk ++ probes)
            (ok && true && decide (0 < (F p).length)) := by
        rw [resolveOrderRev, lookup_single conns (probeConnName p) (F p) probes hu]
      rw [hstep, hok]
      rw [ih ((F p).map dump_sigchunk ++ probes) ok
        (fun q hq => hp q (by simp [hq]))]
      rw [List.reverse_cons, List.flatMap_append]
      simp

/-- Claim C10 counterexample: with one probe whose connection has two
chunks, the resolver's final list holds the fragments in chunk storage
order (least-significant first), not in the most-significant-first
decomposition order the claim asserts. -/
theorem c10_counterexample :
    (resolveModuleProbes
      [(probeConnName 0,
        [SigChunk.wireC ⟨"\\a", 4⟩ 1 0, SigChunk.wireC ⟨"\\a", 4⟩ 1 1])] [0] []).1 ≠
    ([0] : List Nat).flatMap
      (fun _ => decomposeMSB
        [SigChunk.wireC ⟨"\\a", 4⟩ 1 0, SigChunk.wireC ⟨"\\a", 4⟩ 1 1]) := by
  decide

/-- Claim C10 (amended): although the resolver iterates `probe_order` in
reverse and inserts each connection's fragments at the front, the final
probes list is the concatenation, in `probe_order` order (first-assigned
probe's fragments first), of the connections' fragment lists — each
connection's fragments appearing in chunk storage order, i.e. the reverse
of the most-significant-first decomposition; so the finalization walk over
`probe_order` is aligned with the list it checks. -/
theorem c10_resolver_order (conns : List (String × List SigChunk)) (order : List Nat)
    (F : Nat → List SigChunk) (probes0 : List OCLA_SIGNAL)
    (h : ∀ p ∈ order, conns.filter (fun c => decide (c.1 = probeConnName p)) =
      [(probeConnName p, F p)] ∧ F p ≠ []) :
    resolveModuleProbes conns order probes0 =
      (order.flatMap (fun p => (F p).map dump_sigchunk) ++ probes0, true) ∧
    (∀ p, (F p).map dump_sigchunk = (decomposeMSB (F p)).reverse) := by
  constructor
  · unfold resolveModuleProbes
    rw [resolveOrderRev_spec conns F order.reverse probes0 true
      (fun p hp => h p (List.mem_reverse.mp hp))]
    rw [List.reverse_reverse]
  · intro p
    unfold decomposeMSB
    rw [List.map_reverse, List.reverse_reverse]

/-- Claim C10 witness: the amended ordering on a concrete two-probe,
three-chunk instance. -/
theorem c10_witness :
    resolveModuleProbes
      [(probeConnName 0, [SigChunk.wireC ⟨"\\a", 4⟩ 2 0]),
       (probeConnName 1,
        [SigChunk.wireC ⟨"\\b", 4⟩ 1 0, SigChunk.wireC ⟨"\\b", 4⟩ 1 1])] [0, 1] [] =
      (([0, 1] : List Nat).flatMap
        (fun p => ((fun q => if q = 0 then [SigChunk.wireC ⟨"\\a", 4⟩ 2 0]
          else [SigChunk.wireC ⟨"\\b", 4⟩ 1 0, SigChunk.wireC ⟨"\\b", 4⟩ 1 1]) p).map
            dump_sigchunk) ++ [], true) :=
  (c10_resolver_order
    [(probeConnName 0, [SigChunk.wireC ⟨"\\a", 4⟩ 2 0]),
     (probeConnName 1,
      [SigChunk.wireC ⟨"\\b", 4⟩ 1 0, SigChunk.wireC ⟨"\\b", 4⟩ 1 1])] [0, 1]
    (fun q => if q = 0 then [SigChunk.wireC ⟨"\\a", 4⟩ 2 0]
      else [SigChunk.wireC ⟨"\\b", 4⟩ 1 0, SigChunk.wireC ⟨"\\b", 4⟩ 1 1]) []
    (by intro p hp; fin_cases hp <;> exact ⟨by decide, by decide⟩)).1

/-- The fixed AXI4 per-bus signal table pushed by `get_ocla_signals` for
the non-AXILite case, in push order (including the `ARBUSRT` typo of the
source). -/
def axi4_signals : List (String × Nat) :=
  [("AWADDR", 32), ("AWPROT", 3), ("AWVALID", 1), ("AWREADY", 1),
   ("AWBURST", 2), ("AWSIZE", 3), ("AWLEN", 8), ("AWID", 8),
   ("AWCACHE", 4), ("AWREGION", 4), ("AWUSER", 1), ("AWQOS", 4), ("AWLOCK", 1),
   ("WDATA", 32), ("WSTRB", 4), ("WVALID", 1), ("WREADY", 1),
   ("WID", 8), ("WLAST", 1),
   ("BRESP", 2), ("BVALID", 1), ("BREADY", 1), ("BID", 8), ("BUSER", 1),
   ("ARADDR", 32), ("ARPROT", 3), ("ARVALID", 1), ("ARREADY", 1),
   ("ARBUSRT", 2), ("ARSIZE", 3), ("ARLEN", 8), ("ARID", 8),
   ("ARCACHE", 4), ("ARREGION", 4), ("ARUSER", 1), ("ARQOS", 4), ("ARLOCK", 1),
   ("RDATA", 32), ("RRESP", 2), ("RREADY", 1), ("RVALID", 1),
   ("RID", 8), ("RUSER", 1), ("RLAST", 1)]

/-- A cell of the flattened top module: type, instance name and port
connections (each a chunk list in storage order). -/
structure TopCell where
  ctype : String
  cname : String
  conns : List (String × List SigChunk)
  deriving Repr, DecidableEq

/-- The per-matching-cell module pass of `get_ocla_signals`: every non-AXI
module resolves all its probes against the cell's connections. -/
def resolveCellModules (conns : List (String × List SigChunk))
    (mods : List OCLA_MODULE) : List OCLA_MODULE × Bool :=
  mods.foldl
    (fun (acc : List OCLA_MODULE × Bool) m =>
      if m.is_axi then (acc.1 ++ [m], acc.2)
      else
        (acc.1 ++ [{ m with
            probes := (resolveModuleProbes conns m.probe_order m.probes).1 }],
          acc.2 && (resolveModuleProbes conns m.probe_order m.probes).2))
    ([], true)

/-- `OCLA_Analyzer::get_ocla_signals`: scan the flattened top's cells for
the instantiator type and resolve every non-AXI module's probes there;
then every AXI module must still be probe-free and receives the synthetic
per-bus signal table, while every non-AXI module must have found at least
one fragment. -/
def get_ocla_signals (topCells : List TopCell) (axi_type : String) (no_axi_bus : Nat)
    (mods : List OCLA_MODULE) (instantiator_module : String) : List OCLA_MODULE × Bool :=
  let r1 := topCells.foldl
    (fun (acc : List OCLA_MODULE × Bool) cell =>
      if cell.ctype = instantiator_module then
        ((resolveCellModules cell.conns acc.1).1,
          acc.2 && (resolveCellModules cell.conns acc.1).2)
      else acc) (mods, true)
  if r1.2 = true then
    r1.1.foldl
      (fun (acc : List OCLA_MODULE × Bool) m =>
        if m.is_axi then
          if m.probes.length ≠ 0 then (acc.1 ++ [m], false)
          else if acc.2 = true then
            (acc.1 ++ [{ m with probes := m.probes ++ axiProbes (if axi_type = "AXILite" then axi_lite_signals else axi4_signals) no_axi_bus }], acc.2)
          else (acc.1 ++ [m], acc.2)
        else
          if m.probes.length = 0 then (acc.1 ++ [m], false)
          else (acc.1 ++ [m], acc.2))
      ([], true)
  else r1

/-- Checks 1-6 of `sanity_check` (counts, subsystem `cores` parameter,
index sequence, instantiator names, shared `{type, version, id}`, shared
AXI bus widths), none of which mutates state. -/
def sanityS6 (sub : OCLA_DEBUG_SUBSYSTEM_MODULE) (mods : List OCLA_MODULE)
    (instNames : List String) : Bool :=
  decide (mods.length = instNames.length) &&
  decide (sub.cores = mods.length) &&
  (mods.foldl (fun (acc : Bool × Nat) m =>
    (acc.1 && decide (m.index = acc.2), acc.2 + 1)) (true, 0)).1 &&
  instNames.all (fun n => decide (n = sub.name)) &&
  mods.all (fun m => decide (sub.ip_type = m.ip_type ∧
    sub.version = m.version ∧ sub.id = m.id)) &&
  mods.all (fun m =>
    decide ((mods.headD {}).axi_addr_width = m.axi_addr_width ∧
      (mods.headD {}).axi_data_width = m.axi_data_width))

/-- The subsystem state after `map_probe_core` wrote its two derived
arrays. -/
def sanitySub1 (sub : OCLA_DEBUG_SUBSYSTEM_MODULE) (mods : List OCLA_MODULE) :
    OCLA_DEBUG_SUBSYSTEM_MODULE :=
  { sub with
    probe_to_core_map := (map_probe_core sub mods).1.p2c
    calculated_ip_core_width := (map_probe_core sub mods).1.calcW }

/-- Checks 7-10 of `sanity_check` after the mapping decoder (whose status
is `mok`): per-core probe counts against calculated widths (AXI bridge
against `no_axi_bus × protocol size` with zero calculated width), unused
slots, and the two `probes_sum` comparisons. -/
def sanityPost (sub1 : OCLA_DEBUG_SUBSYSTEM_MODULE) (mods1 : List OCLA_MODULE)
    (mok : Bool) : Bool :=
  mok &&
  mods1.all (fun m =>
    if m.is_axi then
      decide (sub1.calculated_ip_core_width.getD m.index 0 = 0) &&
      decide (m.probes_count = sub1.no_axi_bus *
        (if sub1.axi_type = "AXILite" then AXILite_SINGLE_BUS_SIGNALS
         else AXI4_SINGLE_BUS_SIGNALS))
    else decide (m.probes_count = sub1.calculated_ip_core_width.getD m.index 0)) &&
  (if mods1.length < MAXIMUM_SUPPORTED_PROBE_CORE then
    ((List.range MAXIMUM_SUPPORTED_PROBE_CORE).drop sub1.cores).all
      (fun i => decide (sub1.calculated_ip_core_width.getD i 0 = 0))
   else true) &&
  decide ((((List.range MAXIMUM_SUPPORTED_PROBE_CORE).map
      (fun i => sub1.ip_probe_width.getD i 0)).sum +
    (if sub1.mode ≠ "NATIVE" then (mods1.getLastD {}).probes_count else 0)) =
    sub1.probes_sum) &&
  decide ((((List.range MAXIMUM_SUPPORTED_PROBE_CORE).map
      (fun i => sub1.calculated_ip_core_width.getD i 0)).sum +
    (if sub1.mode ≠ "NATIVE" then (mods1.getLastD {}).probes_count else 0)) =
    sub1.probes_sum)

/-- The base-address conflict scan of `sanity_check`, which also stores
each core's base address from `IF{x}_BaseAddress`. -/
def sanityAddr (sub1 : OCLA_DEBUG_SUBSYSTEM_MODULE) (mods1 : List OCLA_MODULE) :
    List OCLA_MODULE × List Nat × Bool :=
  mods1.foldl
    (fun (acc : List OCLA_MODULE × List Nat × Bool) m =>
      if sub1.ip_address.getD m.index 0 ∈ acc.2.1 then
        (acc.1 ++ [{ m with base_address := sub1.ip_address.getD m.index 0 }],
          acc.2.1, false)
      else
        (acc.1 ++ [{ m with base_address := sub1.ip_address.getD m.index 0 }],
          acc.2.1 ++ [sub1.ip_address.getD m.index 0], acc.2.2))
    ([], [], true)

/-- `OCLA_Analyzer::sanity_check`, transliterated as a guarded chain of
the stages above; the returned state carries the post-map subsystem, the
modules with probe orders (and, on reaching check 11, base addresses) and
the mapping decoder's log.  Message emission outside `map_probe_core` is
not observed by any claim and is omitted. -/
def sanity_check (sub : OCLA_DEBUG_SUBSYSTEM_MODULE) (mods : List OCLA_MODULE)
    (instNames : List String) :
    Bool × OCLA_DEBUG_SUBSYSTEM_MODULE × List OCLA_MODULE × List Msg :=
  if sanityS6 sub mods instNames = true then
    if sanityPost (sanitySub1 sub mods) (map_probe_core sub mods).1.mods
        (map_probe_core sub mods).2 = true then
      ((sanityAddr (sanitySub1 sub mods) (map_probe_core sub mods).1.mods).2.2,
        sanitySub1 sub mods,
        (sanityAddr (sanitySub1 sub mods) (map_probe_core sub mods).1.mods).1,
        (map_probe_core sub mods).1.msgs)
    else
      (sanityPost (sanitySub1 sub mods) (map_probe_core sub mods).1.mods
        (map_probe_core sub mods).2,
        sanitySub1 sub mods, (map_probe_core sub mods).1.mods,
        (map_probe_core sub mods).1.msgs)
  else (sanityS6 sub mods instNames, sub, mods, [])

/-- The step-10 finalize loop of `analyze`: every core must finalize; the
first failure zeroes the count and breaks. -/
def oclaCount (ipw : List Nat) : List OCLA_MODULE → Nat → Nat
  | [], c => c
  | m :: ms, c => if finalize m ipw = true then oclaCount ipw ms (c + 1) else 0

/-- One per-core entry of the emitted `ocla` result section: resolved base
address, per-probe `{index, offset, width}` descriptors, rendered probe
signal names. -/
structure CoreSection where
  addr : Nat
  probe_info : List (Nat × Nat × Nat)
  probe_names : List String
  deriving Repr, DecidableEq

/-- Build a core's result section from the final state, as step 11 writes
it. -/
def coreSection (sub : OCLA_DEBUG_SUBSYSTEM_MODULE) (m : OCLA_MODULE) : CoreSection :=
  { addr := m.base_address,
    probe_info := m.probe_order.map (fun p =>
      (p, (sub.probe_to_core_map.getD p {}).offset, sub.ip_probe_width.getD p 0)),
    probe_names := m.probes.map renderSignal }

/-- The emitted output document: the message log is always written; the
`ocla` and `ocla_debug_subsystem` sections only when the final success
count is nonzero. -/
structure OutputDoc where
  messages : List Msg
  ocla : Option (List CoreSection × OCLA_DEBUG_SUBSYSTEM_MODULE)
  deriving Repr, DecidableEq

/-- Steps 5-11 of `OCLA_Analyzer::analyze`, after classification (steps
1-2) and hierarchy resolution (steps 3-4) have produced the subsystem, the
core list, the instantiator names and (post black-box and flatten, which
are external) the flattened top's cells: the instantiator-count guard, AXI
marking, sanity check, signal resolution, per-core finalization and
conditional section emission.  `Msg.endOfAnalysis` models the closing
marker the source always writes. -/
def analyzeTail (sub : OCLA_DEBUG_SUBSYSTEM_MODULE) (mods : List OCLA_MODULE)
    (instNames : List String) (topCells : List TopCell) (instantiator : String) :
    OutputDoc :=
  if instNames.length = 0 then { messages := [Msg.endOfAnalysis], ocla := none }
  else
    if (sanity_check sub (analyzeMarkAxi sub.mode mods) instNames).1 = false then
      { messages := (sanity_check sub (analyzeMarkAxi sub.mode mods) instNames).2.2.2 ++
          [Msg.endOfAnalysis], ocla := none }
    else
      if (get_ocla_signals topCells
          (if (sanity_check sub (analyzeMarkAxi sub.mode mods) instNames).2.1.mode =
            "NATIVE" then "NATIVE"
           else (sanity_check sub (analyzeMarkAxi sub.mode mods) instNames).2.1.axi_type)
          (sanity_check sub (analyzeMarkAxi sub.mode mods) instNames).2.1.no_axi_bus
          (sanity_check sub (analyzeMarkAxi sub.mode mods) instNames).2.2.1
          instantiator).2 = false then
        { messages := (sanity_check sub (analyzeMarkAxi sub.mode mods) instNames).2.2.2 ++
            [Msg.endOfAnalysis], ocla := none }
      else
        { messages := (sanity_check sub (analyzeMarkAxi sub.mode mods) instNames).2.2.2 ++
            [Msg.endOfAnalysis],
          ocla :=
            if oclaCount
                (sanity_check sub (analyzeMarkAxi sub.mode mods) instNames).2.1.ip_probe_width
                (get_ocla_signals topCells
                  (if (sanity_check sub (analyzeMarkAxi sub.mode mods) instNames).2.1.mode =
                    "NATIVE" then "NATIVE"
                   else (sanity_check sub (analyzeMarkAxi sub.mode mods)
                     instNames).2.1.axi_type)
                  (sanity_check sub (analyzeMarkAxi sub.mode mods) instNames).2.1.no_axi_bus
                  (sanity_check sub (analyzeMarkAxi sub.mode mods) instNames).2.2.1
                  instantiator).1 0 ≠ 0 then
              some ((get_ocla_signals topCells
                  (if (sanity_check sub (analyzeMarkAxi sub.mode mods) instNames).2.1.mode =
                    "NATIVE" then "NATIVE"
                   else (sanity_check sub (analyzeMarkAxi sub.mode mods)
                     instNames).2.1.axi_type)
                  (sanity_check sub (analyzeMarkAxi sub.mode mods) instNames).2.1.no_axi_bus
                  (sanity_check sub (analyzeMarkAxi sub.mode mods) instNames).2.2.1
                  instantiator).1.map
                    (coreSection (sanity_check sub (analyzeMarkAxi sub.mode mods)
                      instNames).2.1),
                (sanity_check sub (analyzeMarkAxi sub.mode mods) instNames).2.1)
            else none }

theorem sanity_success_map (sub : OCLA_DEBUG_SUBSYSTEM_MODULE) (mods : List OCLA_MODULE)
    (instNames : List String)
    (h : (sanity_check sub mods instNames).1 = true) :
    (map_probe_core sub mods).2 = true := by
  unfold sanity_check at h
  by_cases h6 : sanityS6 sub mods instNames = true
  · rw [if_pos h6] at h
    by_cases h11 : sanityPost (sanitySub1 sub mods) (map_probe_core sub mods).1.mods
        (map_probe_core sub mods).2 = true
    · unfold sanityPost at h11
      simp only [Bool.and_eq_true] at h11
      exact h11.1.1.1.1
    · rw [if_neg h11] at h
      exact absurd h h11
  · rw [if_neg h6] at h
    exact absurd h h6

theorem oclaCount_eq (ipw : List Nat) :
    ∀ (ms : List OCLA_MODULE) (c : Nat),
      oclaCount ipw ms c =
        if ms.all (fun m => finalize m ipw) = true then c + ms.length else 0 := by
  intro ms
  induction ms with
  | nil => intro c; simp [oclaCount]
  | cons m ms ih =>
      intro c
      unfold oclaCount
      by_cases hm : finalize m ipw = true
      · rw [if_pos hm, ih]
        by_cases hall : ms.all (fun m => finalize m ipw) = true
        · rw [if_pos hall, if_pos (by simp [hm, hall])]
          simp
          omega
        · rw [if_neg hall, if_neg (by simp [hall])]
      · rw [if_neg hm, if_neg (by simp [hm])]

theorem analyzeTail_sections (sub : OCLA_DEBUG_SUBSYSTEM_MODULE)
    (mods : List OCLA_MODULE) (instNames : List String) (topCells : List TopCell)
    (inst : String) :
    Msg.endOfAnalysis ∈ (analyzeTail sub mods instNames topCells inst).messages ∧
    ((analyzeTail sub mods instNames topCells inst).ocla.isSome = true ↔
      (instNames.length ≠ 0 ∧
       (sanity_check sub (analyzeMarkAxi sub.mode mods) instNames).1 = true ∧
       (get_ocla_signals topCells
         (if (sanity_check sub (analyzeMarkAxi sub.mode mods) instNames).2.1.mode =
            "NATIVE" then "NATIVE"
          else (sanity_check sub (analyzeMarkAxi sub.mode mods) instNames).2.1.axi_type)
         (sanity_check sub (analyzeMarkAxi sub.mode mods) instNames).2.1.no_axi_bus
         (sanity_check sub (analyzeMarkAxi sub.mode mods) instNames).2.2.1 inst).2 =
         true ∧
       oclaCount (sanity_check sub (analyzeMarkAxi sub.mode mods) instNames).2.1.ip_probe_width
         (get_ocla_signals topCells
           (if (sanity_check sub (analyzeMarkAxi sub.mode mods) instNames).2.1.mode =
              "NATIVE" then "NATIVE"
            else (sanity_check sub (analyzeMarkAxi sub.mode mods) instNames).2.1.axi_type)
           (sanity_check sub (analyzeMarkAxi sub.mode mods) instNames).2.1.no_axi_bus
           (sanity_check sub (analyzeMarkAxi sub.mode mods) instNames).2.2.1 inst).1
         0 ≠ 0)) := by
  unfold analyzeTail
  by_cases h0 : instNames.length = 0
  · rw [if_pos h0]
    constructor
    · simp
    · constructor
      · intro hs; simp at hs
      · intro ⟨h1, _⟩; exact absurd h0 h1
  · rw [if_neg h0]
    by_cases hsc : (sanity_check sub (analyzeMarkAxi sub.mode mods) instNames).1 = false
    · rw [if_pos hsc]
      constructor
      · simp
      · constructor
        · intro hs; simp at hs
        · intro ⟨_, h2, _⟩
          rw [hsc] at h2
          simp at h2
    · rw [if_neg hsc]
      by_cases hgs : (get_ocla_signals topCells
          (if (sanity_check sub (analyzeMarkAxi sub.mode mods) instNames).2.1.mode =
            "NATIVE" then "NATIVE"
           else (sanity_check sub (analyzeMarkAxi sub.mode mods) instNames).2.1.axi_type)
          (sanity_check sub (analyzeMarkAxi sub.mode mods) instNames).2.1.no_axi_bus
          (sanity_check sub (analyzeMarkAxi sub.mode mods) instNames).2.2.1 inst).2 = false
      · rw [if_pos hgs]
        constructor
        · simp
        · constructor
          · intro hs; simp at hs
          · intro ⟨_, _, h3, _⟩
            rw [hgs] at h3
            simp at h3
      · rw [if_neg hgs]
        constructor
        · simp
        · by_cases hcnt : oclaCount
            (sanity_check sub (analyzeMarkAxi sub.mode mods) instNames).2.1.ip_probe_width
            (get_ocla_signals topCells
              (if (sanity_check sub (analyzeMarkAxi sub.mode mods) instNames).2.1.mode =
                "NATIVE" then "NATIVE"
               else (sanity_check sub (analyzeMarkAxi sub.mode mods) instNames).2.1.axi_type)
              (sanity_check sub (analyzeMarkAxi sub.mode mods) instNames).2.1.no_axi_bus
              (sanity_check sub (analyzeMarkAxi sub.mode mods) instNames).2.2.1 inst).1
            0 ≠ 0
          · rw [if_pos hcnt]
            constructor
            · intro _
              refine ⟨h0, ?_, ?_, hcnt⟩
              · cases hb : (sanity_check sub (analyzeMarkAxi sub.mode mods) instNames).1
                · exact absurd hb hsc
                · rfl
              · cases hb : (get_ocla_signals topCells
                    (if (sanity_check sub (analyzeMarkAxi sub.mode mods) instNames).2.1.mode =
                      "NATIVE" then "NATIVE"
                     else (sanity_check sub (analyzeMarkAxi sub.mode mods)
                       instNames).2.1.axi_type)
                    (sanity_check sub (analyzeMarkAxi sub.mode mods) instNames).2.1.no_axi_bus
                    (sanity_check sub (analyzeMarkAxi sub.mode mods) instNames).2.2.1 inst).2
                · exact absurd hb hgs
                · rfl
            · intro _; rfl
          · rw [if_neg hcnt]
            constructor
            · intro hs; simp at hs
            · intro ⟨_, _, _, h4⟩; exact absurd h4 hcnt

/-- The signal-resolution call of step 8 of `analyze`, applied to the
state `sanity_check` produced: NATIVE mode forces the synthetic-table
selector to "NATIVE", otherwise the AXI type of the subsystem is passed. -/
def analyzeSignals (sub : OCLA_DEBUG_SUBSYSTEM_MODULE) (mods : List OCLA_MODULE)
    (instNames : List String) (topCells : List TopCell) (instantiator : String) :
    List OCLA_MODULE × Bool :=
  get_ocla_signals topCells
    (if (sanity_check sub (analyzeMarkAxi sub.mode mods) instNames).2.1.mode = "NATIVE"
      then "NATIVE"
     else (sanity_check sub (analyzeMarkAxi sub.mode mods) instNames).2.1.axi_type)
    (sanity_check sub (analyzeMarkAxi sub.mode mods) instNames).2.1.no_axi_bus
    (sanity_check sub (analyzeMarkAxi sub.mode mods) instNames).2.2.1
    instantiator

/-- The step-10 loop ends with a nonzero count exactly when the module
list is nonempty and every module finalizes. -/
theorem oclaCount_ne_zero_iff (ipw : List Nat) (ms : List OCLA_MODULE) :
    oclaCount ipw ms 0 ≠ 0 ↔ ms ≠ [] ∧ ∀ m ∈ ms, finalize m ipw = true := by
  rw [oclaCount_eq]
  by_cases hall : ms.all (fun m => finalize m ipw) = true
  · rw [if_pos hall]
    constructor
    · intro h
      refine ⟨?_, fun m hm => List.all_eq_true.mp hall m hm⟩
      intro hnil
      rw [hnil] at h
      simp at h
    · rintro ⟨hne, _⟩
      have hpos : 0 < ms.length := List.length_pos.mpr hne
      omega
  · rw [if_neg hall]
    constructor
    · intro h
      exact absurd rfl h
    · rintro ⟨_, hfin⟩
      exact absurd (List.all_eq_true.mpr hfin) hall

/-- The subsystem of the section-emission example: NATIVE mode, two
cores, probe widths 4 and 3 assigned to interfaces 0 and 1. -/
def exSubC6 : OCLA_DEBUG_SUBSYSTEM_MODULE :=
  { name := "\\dbg_sub", ip_type := "OCLA", version := 1, id := 2, mode := "NATIVE",
    cores := 2, no_probes := 2, probes_sum := 7,
    ip_probe_width := [4, 3, 0, 0, 0, 0, 0, 0, 0, 0, 0, 0, 0, 0, 0],
    ip_address := [256, 512, 0, 0, 0, 0, 0, 0, 0, 0, 0, 0, 0, 0, 0],
    ip_probe_info := [1, 2, 0, 0, 0, 0, 0, 0, 0, 0, 0, 0, 0, 0, 0] }

/-- The two cores of the section-emission example, with probe counts
matching the calculated widths 4 and 3. -/
def exModsC6 : List OCLA_MODULE :=
  [{ name := "\\ocla0", ip_type := "OCLA", version := 1, id := 2,
     axi_addr_width := 32, axi_data_width := 32, mem_depth := 1024,
     probes_count := 4, index := 0 },
   { name := "\\ocla1", ip_type := "OCLA", version := 1, id := 2,
     axi_addr_width := 32, axi_data_width := 32, mem_depth := 1024,
     probes_count := 3, index := 1 }]

/-- Instantiator names for the two example cores. -/
def exInstC6 : List String := ["\\dbg_sub", "\\dbg_sub"]

/-- A flattened top whose second probe connection is 5 bits wide, one
wider than declared: core 0 still finalizes, core 1 does not. -/
def exCellsC6 : List TopCell :=
  [{ ctype := "\\wrapper", cname := "\\u0",
     conns := [("\\probe_1", [SigChunk.wireC ⟨"\\sig_a", 4⟩ 4 0]),
               ("\\probe_2", [SigChunk.wireC ⟨"\\sig_b", 5⟩ 5 0])] }]

/-- The same flattened top with the second probe connection 3 bits wide,
so both cores finalize. -/
def exCellsGoodC6 : List TopCell :=
  [{ ctype := "\\wrapper", cname := "\\u0",
     conns := [("\\probe_1", [SigChunk.wireC ⟨"\\sig_a", 4⟩ 4 0]),
               ("\\probe_2", [SigChunk.wireC ⟨"\\sig_b", 3⟩ 3 0])] }]

/-- Claim C6 counterexample: a run that reaches the finalize loop with
one of two cores finalizing successfully (its resolved fragments sum to
its probe count) still emits no result section, because the other core
fails and zeroes the count — "at least one core finalizes" is not the
emission condition. -/
theorem c6_counterexample :
    (analyzeTail exSubC6 exModsC6 exInstC6 exCellsC6 "\\wrapper").ocla = none ∧
    (analyzeSignals exSubC6 exModsC6 exInstC6 exCellsC6 "\\wrapper").2 = true ∧
    finalize ((analyzeSignals exSubC6 exModsC6 exInstC6 exCellsC6 "\\wrapper").1.headD {})
      exSubC6.ip_probe_width = true ∧
    (sanity_check exSubC6 (analyzeMarkAxi exSubC6.mode exModsC6) exInstC6).1 = true := by
  decide

/-- Claim C6 (amended): the ordered message log (closed by the
end-of-analysis marker) is present in every run, and the per-core result
section plus the subsystem section are emitted if and only if EVERY core
instance successfully finalizes (the step-10 count is nonzero exactly
when the resolved module list is nonempty and all modules finalize; any
failure zeroes the count and stops the loop), on top of the earlier
gates: a nonzero instantiator count, a passing sanity check and a passing
signal resolution. -/
theorem c6_section_emission :
    (∀ (sub : OCLA_DEBUG_SUBSYSTEM_MODULE) (mods : List OCLA_MODULE)
      (instNames : List String) (topCells : List TopCell) (inst : String),
      Msg.endOfAnalysis ∈ (analyzeTail sub mods instNames topCells inst).messages) ∧
    (∀ (ipw : List Nat) (ms : List OCLA_MODULE),
      oclaCount ipw ms 0 ≠ 0 ↔ ms ≠ [] ∧ ∀ m ∈ ms, finalize m ipw = true) ∧
    (∀ (sub : OCLA_DEBUG_SUBSYSTEM_MODULE) (mods : List OCLA_MODULE)
      (instNames : List String) (topCells : List TopCell) (inst : String),
      (analyzeTail sub mods instNames topCells inst).ocla.isSome = true ↔
        (instNames.length ≠ 0 ∧
         (sanity_check sub (analyzeMarkAxi sub.mode mods) instNames).1 = true ∧
         (analyzeSignals sub mods instNames topCells inst).2 = true ∧
         (analyzeSignals sub mods instNames topCells inst).1 ≠ [] ∧
         ∀ m ∈ (analyzeSignals sub mods instNames topCells inst).1,
           finalize m
             (sanity_check sub (analyzeMarkAxi sub.mode mods) instNames).2.1.ip_probe_width =
             true)) := by
  refine ⟨?_, ?_, ?_⟩
  · intro sub mods instNames topCells inst
    exact (analyzeTail_sections sub mods instNames topCells inst).1
  · intro ipw ms
    exact oclaCount_ne_zero_iff ipw ms
  · intro sub mods instNames topCells inst
    refine (analyzeTail_sections sub mods instNames topCells inst).2.trans ?_
    constructor
    · rintro ⟨h0, h1, h2, h3⟩
      obtain ⟨hne, hfin⟩ := (oclaCount_ne_zero_iff _ _).mp h3
      exact ⟨h0, h1, h2, hne, hfin⟩
    · rintro ⟨h0, h1, h2, h3, h4⟩
      exact ⟨h0, h1, h2, (oclaCount_ne_zero_iff _ _).mpr ⟨h3, h4⟩⟩

/-- Witness for the section-emission characterization: on the example
whose two cores both finalize, the message log carries the closing marker
and the result section is emitted. -/
theorem c6_witness :
    Msg.endOfAnalysis ∈
      (analyzeTail exSubC6 exModsC6 exInstC6 exCellsGoodC6 "\\wrapper").messages ∧
    (analyzeTail exSubC6 exModsC6 exInstC6 exCellsGoodC6 "\\wrapper").ocla.isSome = true :=
  ⟨c6_section_emission.1 exSubC6 exModsC6 exInstC6 exCellsGoodC6 "\\wrapper",
   (c6_section_emission.2.2 exSubC6 exModsC6 exInstC6 exCellsGoodC6 "\\wrapper").mpr
     (by decide)⟩

/-- The duplicate-probe subsystem: interface 0 claims probes 1 and 2
(packed field 0x21 = 33), interface 1 claims probe 1 again (field 1). -/
def exSubC2 : OCLA_DEBUG_SUBSYSTEM_MODULE :=
  { mode := "NATIVE", cores := 2, no_probes := 3,
    ip_probe_width := [4, 8, 2, 0, 0, 0, 0, 0, 0, 0, 0, 0, 0, 0, 0],
    ip_probe_info := [33, 1, 0, 0, 0, 0, 0, 0, 0, 0, 0, 0, 0, 0, 0] }

/-- The two cores of the duplicate-probe example. -/
def exModsC2 : List OCLA_MODULE :=
  [{ name := "m0", index := 0 }, { name := "m1", index := 1 }]

/-- Claim C2: the mapping decoder fails on an out-of-range nibble, a
zero-width referenced probe, or a repeated probe index — stated
contrapositively, a successful decode means every consumed nibble is in
range 1..15 and at most `no_probes` with a nonzero configured width, and
no probe index appears twice anywhere in the sweep; on the concrete
duplicate example the decoder returns failure and logs the Duplicated
Probe diagnostic (nibble 0 of interface 2, field 1, probe 1); and a
decode failure means no result section is ever emitted, since the
section requires the decode to have succeeded. -/
theorem c2_decode_errors :
    (∀ (sub : OCLA_DEBUG_SUBSYSTEM_MODULE) (mods : List OCLA_MODULE),
      sub.mode = "NATIVE" ∨ sub.mode = "NATIVE_AXI" →
      (map_probe_core sub mods).2 = true →
      (∀ i, i < nativeCore sub →
        ∀ p ∈ nibblesF 16 (sub.ip_probe_info.getD i 0 % 2 ^ 64),
          1 ≤ p ∧ p ≤ MAXIMUM_SUPPORTED_PROBE_CORE ∧ p ≤ sub.no_probes ∧
            sub.ip_probe_width.getD (p - 1) 0 ≠ 0) ∧
      ((((List.range MAXIMUM_SUPPORTED_PROBE_CORE).filter
          (fun i => decide (i < nativeCore sub))).flatMap
        (fun i => nibblesF 16 (sub.ip_probe_info.getD i 0 % 2 ^ 64))).map
          (fun p => p - 1)).Nodup) ∧
    ((map_probe_core exSubC2 exModsC2).2 = false ∧
     Msg.duplicatedProbe 0 2 1 1 ∈ (map_probe_core exSubC2 exModsC2).1.msgs) ∧
    (∀ (sub : OCLA_DEBUG_SUBSYSTEM_MODULE) (mods : List OCLA_MODULE)
      (instNames : List String) (topCells : List TopCell) (inst : String),
      (analyzeTail sub mods instNames topCells inst).ocla.isSome = true →
      (map_probe_core sub (analyzeMarkAxi sub.mode mods)).2 = true) := by
  refine ⟨?_, ?_, ?_⟩
  · intro sub mods hmode h
    exact ⟨(map_success_valid sub mods hmode h).1, (map_success_valid sub mods hmode h).2.1⟩
  · decide
  · intro sub mods instNames topCells inst h
    have hs := ((analyzeTail_sections sub mods instNames topCells inst).2.mp h).2.1
    exact sanity_success_map sub (analyzeMarkAxi sub.mode mods) instNames hs

/-- Witness for the decode-error characterization: the successful C1
example satisfies the no-duplicates conclusion. -/
theorem c2_witness :
    ((((List.range MAXIMUM_SUPPORTED_PROBE_CORE).filter
        (fun i => decide (i < nativeCore exSubC1))).flatMap
      (fun i => nibblesF 16 (exSubC1.ip_probe_info.getD i 0 % 2 ^ 64))).map
        (fun p => p - 1)).Nodup :=
  (c2_decode_errors.1 exSubC1 exModsC1 (Or.inl rfl) (by decide)).2

end Ocla
